import Mathlib

/-!
# TimeStory: the story extractor of `server.js`

A shallow embedding of the extraction pipeline of `src/server.js`
(`extractLatestStories` and the helpers it calls) together with the
properties of the specification that were checked against it.

A JavaScript string is a sequence of UTF-16 code units; it is modelled as a
list of natural numbers, one per code unit, so that `length`, `indexOf`,
`substring`, `split` and the (non-unicode) regular expressions of the source
all work on the same units as in the program.
-/

set_option maxRecDepth 100000

namespace TimeStory

/-! ## Strings -/

/-- A JavaScript string, as its sequence of UTF-16 code units. -/
abbrev JSString := List Nat

/-- The code units of a literal (exact for the ASCII literals used below). -/
def str (s : String) : JSString := s.toList.map Char.toNat

/-- Code unit of `<`. -/
abbrev cLt : Nat := 60
/-- Code unit of `>`. -/
abbrev cGt : Nat := 62
/-- Code unit of the space character. -/
abbrev cSp : Nat := 32
/-- Code unit of `&`. -/
abbrev cAmp : Nat := 38
/-- Code unit of the double quote. -/
abbrev cQuote : Nat := 34
/-- Code unit of `/`. -/
abbrev cSlash : Nat := 47
/-- Code unit of the backslash. -/
abbrev cBackslash : Nat := 92
/-- Code unit of `?`. -/
abbrev cQuestion : Nat := 63
/-- Code unit of `#`. -/
abbrev cHash : Nat := 35

/-- The class `\s` of a regular expression, which is also the set of code
units removed by `String.prototype.trim` (WhiteSpace and LineTerminator). -/
def isWhiteSpace (c : Nat) : Bool :=
  c == 9 || c == 10 || c == 11 || c == 12 || c == 13 || c == 32 || c == 160 ||
  c == 0x1680 || (0x2000 ≤ c && c ≤ 0x200A) || c == 0x2028 || c == 0x2029 ||
  c == 0x202F || c == 0x205F || c == 0x3000 || c == 0xFEFF

/-- `String.prototype.trim`. -/
def trim (s : JSString) : JSString :=
  (s.dropWhile isWhiteSpace).rdropWhile isWhiteSpace

/-- `s.replace(re, rep)` for a global regular expression `re` and a
replacement `rep` without `$`. The pattern is given by `m`: `m rest` is the
length of the match of `re` that starts at the head of `rest`, if there is
one (every pattern of the source matches at least one code unit). The scan
goes left to right; after a match it resumes behind the match, which is what
the counter does: it is the number of code units of the current match still
to be passed over. -/
def replaceAll (m : JSString → Option Nat) (rep : JSString) : Nat → JSString → JSString
  | _, [] => []
  | skip + 1, _ :: cs => replaceAll m rep skip cs
  | 0, c :: cs =>
    match m (c :: cs) with
    | some n => rep ++ replaceAll m rep (n - 1) cs
    | none => c :: replaceAll m rep 0 cs

/-- Match of `/<[^>]*>/` at the head: a `<`, then everything up to the first
`>` behind it (the greedy `[^>]*` can only stop at the first `>`). -/
def tagMatch : JSString → Option Nat
  | [] => none
  | c :: cs => if c = cLt ∧ cGt ∈ cs then some (cs.indexOf cGt + 2) else none

/-- Match of a literal pattern such as `/&amp;/` at the head. -/
def litMatch (pat : JSString) (s : JSString) : Option Nat :=
  if pat.isPrefixOf s then some pat.length else none

/-- Match of `/\s+/` at the head: the maximal run of white space, if not empty. -/
def wsMatch (s : JSString) : Option Nat :=
  if (s.takeWhile isWhiteSpace).length = 0 then none
  else some (s.takeWhile isWhiteSpace).length

/-- `cleaned.replace(/<[^>]*>/g, ' ')`. -/
def stripTags (s : JSString) : JSString := replaceAll tagMatch [cSp] 0 s

/-- `s.replace(/pat/g, rep)` for a literal `pat`. -/
def replaceLit (pat rep : JSString) (s : JSString) : JSString :=
  replaceAll (litMatch pat) rep 0 s

/-- The chain of entity replacements of `cleanTitle`, in the order of the source. -/
def decodeEntities (s : JSString) : JSString :=
  replaceLit (str "&ldquo;") (str "\"") <|
  replaceLit (str "&rdquo;") (str "\"") <|
  replaceLit (str "&lsquo;") (str "'") <|
  replaceLit (str "&rsquo;") (str "'") <|
  replaceLit (str "&nbsp;") (str " ") <|
  replaceLit (str "&#x27;") (str "'") <|
  replaceLit (str "&#39;") (str "'") <|
  replaceLit (str "&quot;") (str "\"") <|
  replaceLit (str "&gt;") (str ">") <|
  replaceLit (str "&lt;") (str "<") <|
  replaceLit (str "&amp;") (str "&") s

/-- `cleaned.replace(/\s+/g, ' ')`. -/
def collapseWhiteSpace (s : JSString) : JSString := replaceAll wsMatch [cSp] 0 s

/-- The function `cleanTitle` of the source, on a string argument. -/
def cleanTitle (text : JSString) : JSString :=
  if text = [] then []
  else trim (collapseWhiteSpace (decodeEntities (stripTags text)))

/-! ## String primitives of the runtime -/

/-- The string `s` has a substring of the form `<...>`: a `<` with a `>` somewhere
behind it. -/
def hasTag : JSString → Bool
  | [] => false
  | c :: cs => (c == cLt && cs.contains cGt) || hasTag cs

/-- Index of the first occurrence of `pat` in `s`, counted from `i` on. -/
def indexOfAux (pat : JSString) : JSString → Nat → Option Nat
  | [], i => if pat = [] then some i else none
  | c :: cs, i => if pat.isPrefixOf (c :: cs) then some i else indexOfAux pat cs (i + 1)

/-- `s.indexOf(pat, pos)`: `none` stands for `-1`. -/
def indexOf (s pat : JSString) (pos : Nat) : Option Nat :=
  indexOfAux pat (s.drop pos) (min pos s.length)

/-- `s.substring(a, b)`: both indices are clamped to the length and swapped
when out of order. -/
def substring (s : JSString) (a b : Nat) : JSString :=
  let a' := min a s.length
  let b' := min b s.length
  (s.drop (min a' b')).take (max a' b' - min a' b')

/-- `s.includes(pat)`. -/
def includes (s pat : JSString) : Bool := s.tails.any (fun t => pat.isPrefixOf t)

/-- `s.split(sep)` for a separator of one code unit. -/
def split (sep : Nat) : JSString → List JSString
  | [] => [[]]
  | c :: cs =>
    if c = sep then [] :: split sep cs
    else match split sep cs with
      | [] => [[c]]
      | p :: ps => (c :: p) :: ps

/-- The entity sequences that `cleanTitle` decodes. -/
def entities : List JSString :=
  [str "&amp;", str "&lt;", str "&gt;", str "&quot;", str "&#39;", str "&#x27;",
   str "&nbsp;", str "&rsquo;", str "&lsquo;", str "&rdquo;", str "&ldquo;"]

/-- The string `s` contains none of the entity sequences that `cleanTitle` decodes. -/
def NoEntity (s : JSString) : Prop := ∀ e ∈ entities, includes s e = false

/-- Canonical form of a code unit under the `i` flag of a regular expression
without the `u` flag, as far as the comparison with an ASCII pattern
character goes: the letters `a`-`z` are mapped to `A`-`Z`, and no code unit
above 127 is ever mapped into ASCII. It is also `toUpperCase` on a single
ASCII character. -/
def canon (c : Nat) : Nat := if 97 ≤ c ∧ c ≤ 122 then c - 32 else c

/-- The ASCII literal `pat` matches at the head of `s` under the `i` flag. -/
def isPrefixCI (pat s : JSString) : Bool := (pat.map canon).isPrefixOf (s.map canon)

/-- The test `s.match(/^(w1|w2|...)$/i)` for a list of ASCII words: without the `m`
flag `^` and `$` are the two ends of the string. -/
def wholeMatchCI (words : List JSString) (s : JSString) : Bool :=
  words.any (fun w => s.map canon == w.map canon)

/-- The class `\w`. -/
def isWordChar (c : Nat) : Bool :=
  (48 ≤ c && c ≤ 57) || (65 ≤ c && c ≤ 90) || c == 95 || (97 ≤ c && c ≤ 122)

/-- The class `\d`. -/
def isDigit (c : Nat) : Bool := 48 ≤ c && c ≤ 57

/-- The loop `while ((match = re.exec(s)) !== null)` for a global regular
expression `re` with one capture group, every match of which has at least
one code unit: the list of `(match.index, match[1])`. The pattern is given by
`m`: `m rest` is the capture and the length of the match of `re` that starts
at the head of `rest`. The first counter is the number of code units of the
last match still to be passed over (`lastIndex` lies behind the match), the
second is the index of the head of the remaining input. -/
def execAll (m : JSString → Option (JSString × Nat)) : Nat → Nat → JSString → List (Nat × JSString)
  | _, _, [] => []
  | skip + 1, i, _ :: cs => execAll m skip (i + 1) cs
  | 0, i, c :: cs =>
    match m (c :: cs) with
    | some (cap, n) => (i, cap) :: execAll m (n - 1) (i + 1) cs
    | none => execAll m 0 (i + 1) cs

/-- The stable sort `titles.sort((a, b) => b.length - a.length)`: longest first,
strings of equal length in their original order. -/
def sortByLengthDesc (l : List JSString) : List JSString :=
  l.insertionSort (fun a b => b.length ≤ a.length)

/-- JavaScript truthiness of a value that is `null` (`none`) or a string: only
a non-empty string is truthy. -/
def truthy : Option JSString → Bool
  | none => false
  | some s => !s.isEmpty

/-- The expression `a || b` on such values. -/
def jsOr (a b : Option JSString) : Option JSString := if truthy a then a else b

/-! ## The patterns of the title searches -/

/-- Match at the head of `s`, under the `i` flag, of a pattern of the shape
`pre(opn[^x]+)close` where `pre`, `opn`, `close` are ASCII literals and `close`
begins with the character `x`: the greedy class can only end at the first `x`,
so the match is determined by the first `x` behind the opening literal. The
result is the capture and the length of the match. -/
def delimMatch (pre opn : JSString) (stop : Nat) (close : JSString) (s : JSString) :
    Option (JSString × Nat) :=
  if isPrefixCI (pre ++ opn) s then
    let body := s.drop (pre.length + opn.length)
    let run := body.takeWhile (fun c => c != stop)
    if run ≠ [] ∧ isPrefixCI close (body.drop run.length) then
      some ((s.drop pre.length).take (opn.length + run.length),
        pre.length + opn.length + run.length + close.length)
    else none
  else none

/-- The pattern `/href="(https:\/\/time\.com\/[^"]+)"/gi` of the discovery. -/
def hrefMatch : JSString → Option (JSString × Nat) :=
  delimMatch (str "href=\"") (str "https://time.com/") cQuote (str "\"")

/-- The pattern `/<title>([^<]+)<\/title>/gi`. -/
def titleElementMatch : JSString → Option (JSString × Nat) :=
  delimMatch (str "<title>") [] cLt (str "</title>")

/-- The pattern `/title="([^"]+)"/gi`. -/
def titleAttrMatch : JSString → Option (JSString × Nat) :=
  delimMatch (str "title=\"") [] cQuote (str "\"")

/-- The pattern `/>([^<]+)</g` (it has no letter, so that matching it as under
the `i` flag changes nothing). -/
def textMatch : JSString → Option (JSString × Nat) :=
  delimMatch (str ">") [] cLt (str "<")

/-- The opening tag `<h[1-6][^>]*>` under the `i` flag at the head: its length. -/
def openHeading : JSString → Option Nat
  | a :: b :: c :: rest =>
    if a = cLt ∧ canon b = 72 ∧ 49 ≤ c ∧ c ≤ 54 ∧ cGt ∈ rest then some (rest.indexOf cGt + 4)
    else none
  | _ => none

/-- The closing tag `<\/h[1-6]>` under the `i` flag at the head. -/
def closeHeading : JSString → Bool
  | a :: b :: c :: d :: e :: _ =>
    a = cLt ∧ b = cSlash ∧ canon c = 72 ∧ 49 ≤ d ∧ d ≤ 54 ∧ e = cGt
  | _ => false

/-- The opening tag `<span[^>]*>` under the `i` flag at the head: its length. -/
def openSpan (s : JSString) : Option Nat :=
  if isPrefixCI (str "<span") s ∧ cGt ∈ s.drop 5 then some ((s.drop 5).indexOf cGt + 6)
  else none

/-- The closing tag `<\/span>` under the `i` flag at the head. -/
def closeSpan (s : JSString) : Bool := isPrefixCI (str "</span>") s

/-- The part `[^<]*(?:<[^>]*>[^<]*)*?` of an element pattern followed by its
closing tag: the offset at which the closing tag is matched. Outside an inner
tag (`false`) the run `[^<]*` ends at the next `<`, where the lazy group first
lets the closing tag try and otherwise opens an inner tag; inside an inner
tag (`true`) the run `[^>]*` ends at the next `>`. No other way through the
pattern can match, since each piece that follows a run begins with the
character the run excludes. -/
def bodyEnd (close : JSString → Bool) : Bool → JSString → Option Nat
  | _, [] => none
  | false, c :: cs =>
    if c = cLt then
      if close (c :: cs) then some 0 else (bodyEnd close true cs).map (· + 1)
    else (bodyEnd close false cs).map (· + 1)
  | true, c :: cs =>
    if c = cGt then (bodyEnd close false cs).map (· + 1)
    else (bodyEnd close true cs).map (· + 1)

/-- Match at the head of `s` of an element pattern
`open([^<]+(?:<[^>]*>[^<]*)*?)close`: the capture and the length of the match. -/
def elementMatch (opn : JSString → Option Nat) (close : JSString → Bool) (closeLen : Nat)
    (s : JSString) : Option (JSString × Nat) :=
  match opn s with
  | none => none
  | some k =>
    match s.drop k with
    | [] => none
    | c :: cs =>
      if c = cLt then none
      else match bodyEnd close false (c :: cs) with
        | none => none
        | some e => some ((c :: cs).take e, k + e + closeLen)

/-- The pattern `/<h[1-6][^>]*>([^<]+(?:<[^>]*>[^<]*)*?)<\/h[1-6]>/gi`. -/
def headingMatch : JSString → Option (JSString × Nat) :=
  elementMatch openHeading closeHeading 5

/-- The pattern `/<span[^>]*>([^<]+(?:<[^>]*>[^<]*)*?)<\/span>/gi`. -/
def spanMatch : JSString → Option (JSString × Nat) :=
  elementMatch openSpan closeSpan 7

/-! ## Title resolution -/

/-- The function `findLinkText` of the source. -/
def findLinkText (html : JSString) (position : Nat) : Option JSString :=
  match indexOf html (str ">") position with
  | none => none
  | some linkStart =>
    match indexOf html (str "</a>") linkStart with
    | none => none
    | some linkEnd =>
      if linkEnd - linkStart > 1000 then none
      else some (cleanTitle (substring html (linkStart + 1) linkEnd))

/-- The titles collected by `findNearbyTitle` for one pattern: the cleaned
captures of all matches in `area` whose length is in `[15, 200]`. -/
def nearbyTitles (m : JSString → Option (JSString × Nat)) (area : JSString) : List JSString :=
  ((execAll m 0 0 area).map (fun r => cleanTitle r.2)).filter
    (fun title => !title.isEmpty && decide (15 ≤ title.length) && decide (title.length ≤ 200))

/-- The loop over the patterns in `findNearbyTitle`. -/
def nearbyLoop (area : JSString) : List (JSString → Option (JSString × Nat)) → Option JSString
  | [] => none
  | pattern :: rest =>
    match sortByLengthDesc (nearbyTitles pattern area) with
    | title :: _ => some title
    | [] => nearbyLoop area rest

/-- The function `findNearbyTitle` of the source (`Math.max(0, position - 3000)`
is the truncated subtraction). -/
def findNearbyTitle (html : JSString) (position : Nat) : Option JSString :=
  let start := position - 3000
  let stop := min html.length (position + 3000)
  let area := substring html start stop
  nearbyLoop area [headingMatch, titleElementMatch, titleAttrMatch, spanMatch]

/-- The function `extractTitleForArticle` of the source (its third argument,
the URL, is not used by it). -/
def extractTitleForArticle (html : JSString) (position : Nat) (_url : JSString) :
    Option JSString :=
  let linkTitle := findLinkText html position
  if truthy linkTitle ∧ 10 ≤ (linkTitle.getD []).length then linkTitle
  else
    let nearbyTitle := findNearbyTitle html position
    if truthy nearbyTitle ∧ 10 ≤ (nearbyTitle.getD []).length then nearbyTitle
    else none

/-- The words of the pattern tested in `findTitleInLargerArea`. -/
def genericWords : List JSString :=
  [str "subscribe", str "sign", str "login", str "menu", str "search", str "home",
   str "news", str "time", str "click", str "read", str "view", str "see", str "watch",
   str "more", str "here", str "advertisement", str "ad"]

/-- The function `findTitleInLargerArea` of the source. -/
def findTitleInLargerArea (html : JSString) (position : Nat) : Option JSString :=
  let start := position - 5000
  let stop := min html.length (position + 2000)
  let area := substring html start stop
  let candidates := ((execAll textMatch 0 0 area).map (fun r => cleanTitle r.2)).filter
    (fun text => !text.isEmpty && decide (15 ≤ text.length) && decide (text.length ≤ 300) &&
      !wholeMatchCI genericWords text && decide (3 ≤ (split cSp text).length))
  match sortByLengthDesc candidates with
  | text :: _ => some text
  | [] => none

/-- The test `parts[i].match(/^\d+$/)`. -/
def isNumeric (s : JSString) : Bool := !s.isEmpty && s.all isDigit

/-- The condition under which the loop of `generateTitleFromUrl` takes a part. -/
def meaningful (part : JSString) : Bool :=
  !part.isEmpty && decide (3 < part.length) && !isNumeric part

/-- The loop `for (let i = parts.length - 1; i >= 0; i--)` of
`generateTitleFromUrl`, with `n = i + 1`: the value of `slug` behind the loop. -/
def slugLoop (parts : List JSString) : Nat → JSString
  | 0 => []
  | i + 1 => if meaningful (parts.getD i []) then parts.getD i [] else slugLoop parts i

/-- `slug.replace(/[-_]/g, ' ')`. -/
def replaceDashes (s : JSString) : JSString :=
  s.map (fun c => if c = 45 ∨ c = 95 then cSp else c)

/-- `s.replace(/\b\w/g, l => l.toUpperCase())`: a word character is matched when
the code unit before it is not a word character (or it is the first one); the
flag tells whether the code unit before the head is a word character. -/
def capitalizeWords : Bool → JSString → JSString
  | _, [] => []
  | prevWord, c :: cs =>
    (if !prevWord && isWordChar c then canon c else c) :: capitalizeWords (isWordChar c) cs

/-- The function `generateTitleFromUrl` of the source. -/
def generateTitleFromUrl (url : JSString) : Option JSString :=
  let parts := split cSlash url
  let slug := slugLoop parts parts.length
  if !slug.isEmpty ∧ 5 < slug.length then
    some (trim (capitalizeWords false (replaceDashes slug)))
  else none

/-! ## The extraction -/

/-- A value thrown by the program. -/
inductive Thrown where
  | typeError (message : String)
deriving DecidableEq, Repr

deriving instance DecidableEq for Except

/-- An entry of `allUrls` and of `potentialArticles`. -/
structure Candidate where
  url : JSString
  position : Nat
deriving DecidableEq, Repr

/-- An entry of the result. -/
structure Story where
  title : JSString
  link : JSString
deriving DecidableEq, Repr

/-- `url.replace(/c+$/, '')` for a character `c`: the leftmost match of `c+$` is
the whole run of `c` at the end of the string. -/
def stripTrailing (c : Nat) (url : JSString) : JSString := url.rdropWhile (fun d => d == c)

/-- The clean-up of a URL in the filtering loop (lines 84-87). When the URL
still contains `#` behind the first step, `url.split('#')` makes `url` an array,
and the call `url.replace` on the next line throws a `TypeError`. -/
def cleanUrl (url : JSString) : Except Thrown JSString :=
  let url := if includes url (str "?") then (split cQuestion url).headD [] else url
  if includes url (str "#") then .error (.typeError "url.replace is not a function")
  else .ok (stripTrailing cQuote (stripTrailing cBackslash url))

/-- The list `excludePatterns` of the source. -/
def excludePatterns : List JSString :=
  [str "wp-content", str "/img/", str "/static/", str "/css/", str "/js/", str ".png",
   str ".jpg", str ".jpeg", str ".gif", str ".svg", str ".pdf", str ".css", str ".js",
   str "subscribe", str "newsletter", str "privacy-policy", str "terms-of-service",
   str "contact", str "about"]

/-- The value of `shouldExclude` behind the loop over `excludePatterns`. The
function `toLowerCase` stands for `String.prototype.toLowerCase`, whose Unicode
case tables are part of the runtime and are taken as a parameter. -/
def shouldExclude (toLowerCase : JSString → JSString) (url : JSString) : Bool :=
  excludePatterns.any (fun pattern => includes (toLowerCase url) pattern)

/-- The condition under which a cleaned, not yet seen URL is pushed to
`potentialArticles` (line 124). -/
def keepUrl (toLowerCase : JSString → JSString) (url : JSString) : Bool :=
  !shouldExclude toLowerCase url && decide (30 < url.length) &&
    decide (4 ≤ (split cSlash url).length)

/-- The filtering loop `for (let urlData of allUrls)` (lines 80-130), with the
set `seen` and the array `potentialArticles` as they stand before the
iteration. -/
def filterLoop (toLowerCase : JSString → JSString) :
    List Candidate → List JSString → List Candidate → Except Thrown (List Candidate)
  | [], _, potentialArticles => .ok potentialArticles
  | urlData :: rest, seen, potentialArticles =>
    match cleanUrl urlData.url with
    | .error e => .error e
    | .ok url =>
      if url ∈ seen then filterLoop toLowerCase rest seen potentialArticles
      else if keepUrl toLowerCase url then
        filterLoop toLowerCase rest (url :: seen)
          (potentialArticles ++ [⟨url, urlData.position⟩])
      else filterLoop toLowerCase rest (url :: seen) potentialArticles

/-- The words of the pattern tested in the validation of a title (line 165). -/
def stopWords : List JSString :=
  [str "home", str "menu", str "search", str "login", str "sign", str "subscribe",
   str "click", str "read", str "view", str "see", str "watch", str "more", str "here",
   str "link", str "url", str "image", str "photo"]

/-- The title found for an article before it is cleaned (lines 150-155). -/
def resolveTitle (html : JSString) (article : Candidate) : Option JSString :=
  let title := extractTitleForArticle html article.position article.url
  if !truthy title || decide ((title.getD []).length < 5) then
    jsOr (findTitleInLargerArea html article.position) (generateTitleFromUrl article.url)
  else title

/-- The validation of a cleaned title (lines 162-165). -/
def validTitle (title : JSString) : Bool :=
  !title.isEmpty && decide (5 ≤ title.length) && decide (title.length ≤ 500) &&
    !wholeMatchCI stopWords title

/-- The story that one iteration of the title loop pushes for `article`, if it
pushes one (lines 150-178). -/
def storyFor (html : JSString) (article : Candidate) : Option Story :=
  let title := resolveTitle html article
  if truthy title then
    let title := cleanTitle (title.getD [])
    if validTitle title then some ⟨title, article.url⟩ else none
  else none

/-- The title loop (lines 141-179), with `stories` and `usedLinks` as they stand
before the iteration. -/
def storyLoop (html : JSString) : List Candidate → List Story → List JSString → List Story
  | [], stories, _ => stories
  | article :: rest, stories, usedLinks =>
    if stories.length < 6 then
      if article.url ∈ usedLinks then storyLoop html rest stories usedLinks
      else match storyFor html article with
        | some story => storyLoop html rest (stories ++ [story]) (article.url :: usedLinks)
        | none => storyLoop html rest stories usedLinks
    else stories

/-- The array `allUrls` behind the discovery loop (lines 57-66). -/
def allUrls (html : JSString) : List Candidate :=
  (execAll hrefMatch 0 0 html).map (fun r => ⟨r.2, r.1⟩)

/-- The array `potentialArticles` behind the stable sort by position (line 138),
or the value thrown by the filtering loop. -/
def potentialArticles (toLowerCase : JSString → JSString) (html : JSString) :
    Except Thrown (List Candidate) :=
  match filterLoop toLowerCase (allUrls html) [] [] with
  | .error e => .error e
  | .ok articles => .ok (articles.insertionSort (fun a b => a.position ≤ b.position))

/-- The function `extractLatestStories` of the source: the stories it returns,
or the value it throws. -/
def extractLatestStories (toLowerCase : JSString → JSString) (htmlContent : JSString) :
    Except Thrown (List Story) :=
  match potentialArticles toLowerCase htmlContent with
  | .error e => .error e
  | .ok articles => .ok (storyLoop htmlContent articles [] [])

/-- `String.prototype.toLowerCase` on strings of ASCII code units. -/
def asciiToLowerCase (s : JSString) : JSString :=
  s.map (fun c => if 65 ≤ c ∧ c ≤ 90 then c + 32 else c)

/-! ## Predicates used in the statements -/

/-- No `<` of `s` has a `>` somewhere behind it: the pattern `/<[^>]*>/` matches
nowhere in `s`. -/
def NoTag (s : JSString) : Prop := ∀ a b, s = a ++ cLt :: b → cGt ∉ b

/-- White space normal form: the only white space character of `s` is the
space, and no two white space characters are next to each other. -/
def WsNormal (s : JSString) : Prop :=
  (∀ c ∈ s, isWhiteSpace c = true → c = cSp) ∧
    List.Chain' (fun a b => ¬ (isWhiteSpace a = true ∧ isWhiteSpace b = true)) s

instance (s : JSString) : Decidable (NoEntity s) := by
  unfold NoEntity
  infer_instance

/-- The position of the first entry of `urls` whose URL is cleaned to `link`. -/
def firstOff (urls : List Candidate) (link : JSString) : Option Nat :=
  (urls.find? (fun m => decide (cleanUrl m.url = .ok link))).map (fun m => m.position)

/-- The character offset at which `link` first occurs in the document as the
cleaned URL of a matching `href`. -/
def firstOffset (html : JSString) (link : JSString) : Option Nat :=
  firstOff (allUrls html) link

/-- The stories obtained by resolving and validating every candidate in order,
with no cap on their number. -/
def resolveAll (html : JSString) (articles : List Candidate) : List Story :=
  articles.filterMap (storyFor html)

/-- A document with nine links: a link to a subscription page, two links to the
same story, and seven stories in all. -/
def sampleDocument : JSString :=
  str "<a href=\"https://time.com/7000001/first-story-of-the-day/\">First story of the day</a><a href=\"https://time.com/subscribe-now/offers-page/index\">Subscribe and save today</a><a href=\"https://time.com/7000002/second-story-of-the-day/?utm=x\">Second story of the day</a><a href=\"https://time.com/7000001/first-story-of-the-day/\">First story, once more</a><a href=\"https://time.com/7000003/third-story-of-the-day/\">Third story of the day</a><a href=\"https://time.com/7000004/fourth-story-of-the-day/\">Fourth story of the day</a><a href=\"https://time.com/7000005/fifth-story-of-the-day/\">Fifth story of the day</a><a href=\"https://time.com/7000006/sixth-story-of-the-day/\">Sixth story of the day</a><a href=\"https://time.com/7000007/seventh-story-of-the-day/\">Seventh story of the day</a>"

/-- The stories that `extractLatestStories` returns for `sampleDocument`. -/
def sampleStories : List Story :=
  [⟨str "First story of the day", str "https://time.com/7000001/first-story-of-the-day/"⟩,
   ⟨str "Second story of the day", str "https://time.com/7000002/second-story-of-the-day/"⟩,
   ⟨str "Third story of the day", str "https://time.com/7000003/third-story-of-the-day/"⟩,
   ⟨str "Fourth story of the day", str "https://time.com/7000004/fourth-story-of-the-day/"⟩,
   ⟨str "Fifth story of the day", str "https://time.com/7000005/fifth-story-of-the-day/"⟩,
   ⟨str "Sixth story of the day", str "https://time.com/7000006/sixth-story-of-the-day/"⟩]

/-- The deduplicated candidates: the entries of `urls`, with their cleaned URL,
that get past the test `seen.has(url)` of the filtering loop (lines 89-91),
before the tests of lines 93-124 are applied to them. -/
def dedupEntries : List Candidate → List JSString → List Candidate
  | [], _ => []
  | urlData :: rest, seen =>
    match cleanUrl urlData.url with
    | .error _ => dedupEntries rest seen
    | .ok url =>
      if url ∈ seen then dedupEntries rest seen
      else ⟨url, urlData.position⟩ :: dedupEntries rest (url :: seen)

/-- Every code unit of a capture of the pattern is a code unit of the input. -/
def CaptureSub (m : JSString → Option (JSString × Nat)) : Prop :=
  ∀ t cap n, m t = some (cap, n) → ∀ x ∈ cap, x ∈ t

/-- A document with one link, whose anchor text has entities that are encoded
three times. -/
def encodedDocument : JSString :=
  str "<a href=\"https://time.com/7000001/first-story-of-the-day/\">&amp;amp;lt;b&amp;amp;gt; &amp;amp;amp; more</a>"

/-- The last part that passes the test of the loop of `generateTitleFromUrl`. -/
def lastMeaningful (parts : List JSString) : Option JSString :=
  (parts.filter meaningful).getLast?

/-- A non-empty word of lower-case letters `a`-`z`. -/
def isLowerWord (w : JSString) : Bool := !w.isEmpty && w.all (fun c => decide (97 ≤ c ∧ c ≤ 122))

/-- A hyphen or an underscore. -/
def isDash (c : Nat) : Bool := c == 45 || c == 95

/-- The segment made of a word and of further words, each behind a separator. -/
def joinWords : JSString → List (Nat × JSString) → JSString
  | first, [] => first
  | first, (sep, w) :: more => first ++ sep :: joinWords w more

/-- A word with its first letter in upper case and the rest unchanged. -/
def capitalize : JSString → JSString
  | [] => []
  | c :: cs => (c - 32) :: cs

/-- The words, each with its first letter in upper case, joined by single spaces. -/
def titleOfWords : JSString → List (Nat × JSString) → JSString
  | first, [] => capitalize first
  | first, (_, w) :: more => capitalize first ++ cSp :: titleOfWords w more

/-- A document with a heading in front of a link whose anchor text has more than
10 code units; the `href` of the link is at offset 46. -/
def headingDocument : JSString :=
  str "<h1>A heading that is long enough here</h1><a href=\"https://time.com/7000001/first-story-of-the-day/\">A Short Guide to Something Longer</a>"

/-- A document with two links whose URLs differ only by a `/` at the end. -/
def slashDocument : JSString :=
  str "<a href=\"https://time.com/7000001/first-story-of-the-day/\">First story of the day</a><a href=\"https://time.com/7000001/first-story-of-the-day\">First story, once more</a>"

/-! ## The request handler -/

/-- A value in the object of a response body. -/
inductive JsonValue where
  | text (s : String)
  | number (n : Nat)
  | stories (l : List Story)
  | record (fields : List (String × String))
deriving DecidableEq, Repr

/-- The body of a response, before `JSON.stringify`: the array of stories or an
object. -/
inductive Body where
  | array (stories : List Story)
  | object (fields : List (String × JsonValue))
deriving DecidableEq, Repr

/-- A response: the status given to `res.writeHead` and the body given to
`res.end`. The four headers are set on every response before the routing and
are left out. -/
structure Response where
  status : Nat
  body : Body
deriving DecidableEq, Repr

/-- What the handler does with a request: it answers at once; or it first awaits
`fetchTimeComHTML()` and answers from its outcome, the HTML text or the message
of the error it was rejected with; or a value is thrown before the `try` block
is entered, so that the promise of the `async` handler is rejected with it and
nothing is written to the response. -/
inductive Handled where
  | respond (r : Response)
  | awaitFetch (answer : Except String JSString → Response)
  | rejected (thrown : Thrown)

/-- The response of the `catch` block (lines 396-402). -/
def failureResponse (message : String) : Response :=
  ⟨500, .object [("error", .text "Failed to fetch stories"), ("message", .text message)]⟩

/-- The response of the last `else` branch (lines 391-393). -/
def notFoundResponse : Response :=
  ⟨404, .object [("error", .text "Endpoint not found")]⟩

/-- The response to `GET /` (lines 381-389). -/
def indexResponse : Response :=
  ⟨200, .object [("message", .text "Time.com Stories API - Lenient Version"),
    ("endpoints", .record [("GET /getTimeStories", "Get latest 6 stories from Time.com"),
      ("GET /debug", "Debug extraction process")])]⟩

/-- The request handler (lines 343-404) as a function of `req.method`, of `req.url`
and of the text of `req.headers.host` in the template literal of line 344. The
constructor `URL` belongs to the runtime and is taken as a parameter:
`parseUrl input base` is the `pathname` of `new URL(input, base)`, or the value
that the constructor throws. Line 344 stands before the `try` block of lines
353-403, so a value thrown there is not caught. A rejected fetch and a value
thrown by `extractLatestStories` both end in the `catch` block. -/
def handler (toLowerCase : JSString → JSString)
    (parseUrl : JSString → JSString → Except Thrown JSString)
    (method url host : JSString) : Handled :=
  match parseUrl url (str "http://" ++ host) with
  | .error thrown => .rejected thrown
  | .ok pathname =>
    if pathname = str "/getTimeStories" ∧ method = str "GET" then
      .awaitFetch (fun fetched =>
        match fetched with
        | .error message => failureResponse message
        | .ok htmlContent =>
          match extractLatestStories toLowerCase htmlContent with
          | .error (.typeError message) => failureResponse message
          | .ok stories => ⟨200, .array stories⟩)
    else if pathname = str "/debug" ∧ method = str "GET" then
      .awaitFetch (fun fetched =>
        match fetched with
        | .error message => failureResponse message
        | .ok htmlContent =>
          match extractLatestStories toLowerCase htmlContent with
          | .error (.typeError message) => failureResponse message
          | .ok stories =>
            ⟨200, .object [("htmlLength", .number htmlContent.length),
              ("storiesFound", .number stories.length), ("stories", .stories stories)]⟩)
    else if pathname = str "/" ∧ method = str "GET" then .respond indexResponse
    else .respond notFoundResponse

/-- The `pathname` of `new URL(input, base)` on the request targets of the closed
theorems below, for a base `http://host:port`: the target `//` opens an
authority with an empty host, for which the constructor throws
`TypeError: Invalid URL`; a target that begins with one `/` followed by ASCII
letters and single slashes, with at most a query or a fragment behind them, has
as `pathname` its part before the first `?` or `#`. It is used on no other
target. -/
def samplePathname (input _base : JSString) : Except Thrown JSString :=
  if input = str "//" then .error (.typeError "Invalid URL")
  else .ok (input.takeWhile (fun c => c != cQuestion && c != cHash))

/-- A document with two links whose URLs differ only in the fragment. -/
def fragmentDocument : JSString :=
  str "<a href=\"https://time.com/7000001/first-story-of-the-day/#a\">First story of the day</a><a href=\"https://time.com/7000001/first-story-of-the-day/#b\">First story of the day</a>"

/-- The first of the strings of greatest length. -/
def firstLongest : List JSString → Option JSString
  | [] => none
  | a :: l =>
    match firstLongest l with
    | none => some a
    | some b => if b.length ≤ a.length then some a else some b

/-- The window of `findNearbyTitle`: 3000 code units either side of the offset. -/
def nearbyArea (html : JSString) (position : Nat) : JSString :=
  substring html (position - 3000) (min html.length (position + 3000))

/-- The pattern classes of `findNearbyTitle`, in the order in which they are tried. -/
def nearbyClasses : List (JSString → Option (JSString × Nat)) :=
  [headingMatch, titleElementMatch, titleAttrMatch, spanMatch]

/-- The cleaned texts of the matches of `/>([^<]+)</g` in the window from 5000 code
units before to 2000 after the offset that have a length in `[15, 300]` and at
least 3 parts when split at the spaces: the candidates of `findTitleInLargerArea`
without the test of the generic words. -/
def largerAreaTexts (html : JSString) (position : Nat) : List JSString :=
  ((execAll textMatch 0 0
      (substring html (position - 5000) (min html.length (position + 2000)))).map
    (fun r => cleanTitle r.2)).filter
    (fun text => decide (15 ≤ text.length) && decide (text.length ≤ 300) &&
      decide (3 ≤ (split cSp text).length))

/-- A document with a short heading, a link and a span with a longer text; the
`href` of the link is at offset 17. -/
def spanDocument : JSString :=
  str "<h1>Short</h1><a href=\"https://time.com/7000001/first-story-of-the-day/\">x</a><span>A span text that is long enough</span>"

/-- A link whose anchor text has exactly 1000 code units, the letter `x` 1000 times:
the `>` of the opening tag is at index 2 and the closing tag at index 1003. -/
def longAnchor : JSString :=
  str "<a>" ++ List.replicate 1000 120 ++ str "</a>"

/-- A document with one link, to a category page directly under the host. -/
def categoryDocument : JSString :=
  str "<a href=\"https://time.com/some-long-category-name-here\">A category page of the site</a>"

/-- The entity replacements of `cleanTitle` behind the first one, in the order
of the source: the sequence and the code unit that replaces it. -/
def restEntities : List (JSString × Nat) :=
  [(str "&lt;", cLt), (str "&gt;", cGt), (str "&quot;", cQuote), (str "&#39;", 39),
   (str "&#x27;", 39), (str "&nbsp;", cSp), (str "&rsquo;", 39), (str "&lsquo;", 39),
   (str "&rdquo;", cQuote), (str "&ldquo;", cQuote)]

/-- The capture of every match of `m` is a substring of the input. -/
def CapturePart (m : JSString → Option (JSString × Nat)) : Prop :=
  ∀ t cap n, m t = some (cap, n) → cap <:+: t

/-- A document with one link, whose anchor text has an ampersand that is encoded
once. -/
def ampersandDocument : JSString :=
  str "<a href=\"https://time.com/7000002/second-story-of-the-day/\">AT&amp;T and the news of the day</a>"

/-- The stories of `ampersandDocument`. -/
def ampersandStories : List Story :=
  [⟨str "AT&T and the news of the day", str "https://time.com/7000002/second-story-of-the-day/"⟩]

/-! ## Global replacement -/

theorem replaceAll_nil (m : JSString → Option Nat) (rep : JSString) (k : Nat) :
    replaceAll m rep k [] = [] := by
  cases k <;> rfl

theorem replaceAll_skip (m : JSString → Option Nat) (rep : JSString) (k : Nat) (s : JSString) :
    replaceAll m rep k s = replaceAll m rep 0 (s.drop k) := by
  induction s generalizing k with
  | nil => simp [replaceAll_nil]
  | cons c cs ih =>
    cases k with
    | zero => rfl
    | succ k => simpa [replaceAll] using ih k

theorem replaceAll_cons_none {m : JSString → Option Nat} {rep : JSString} {c : Nat}
    {cs : JSString} (h : m (c :: cs) = none) :
    replaceAll m rep 0 (c :: cs) = c :: replaceAll m rep 0 cs := by
  simp [replaceAll, h]

theorem replaceAll_cons_some {m : JSString → Option Nat} {rep : JSString} {c : Nat}
    {cs : JSString} {n : Nat} (h : m (c :: cs) = some n) :
    replaceAll m rep 0 (c :: cs) = rep ++ replaceAll m rep 0 (cs.drop (n - 1)) := by
  simp only [replaceAll, h]
  rw [replaceAll_skip]

theorem mem_replaceAll {m : JSString → Option Nat} {rep : JSString} {x : Nat} :
    ∀ (s : JSString) (k : Nat), x ∈ replaceAll m rep k s → x ∈ s ∨ x ∈ rep := by
  intro s
  induction s with
  | nil => intro k h; simp [replaceAll_nil] at h
  | cons c cs ih =>
    intro k h
    cases k with
    | succ k =>
      simp only [replaceAll] at h
      rcases ih k h with h | h
      · exact Or.inl (List.mem_cons_of_mem _ h)
      · exact Or.inr h
    | zero =>
      simp only [replaceAll] at h
      split at h
      · rcases List.mem_append.1 h with h | h
        · exact Or.inr h
        · rcases ih _ h with h | h
          · exact Or.inl (List.mem_cons_of_mem _ h)
          · exact Or.inr h
      · rcases List.mem_cons.1 h with h | h
        · exact Or.inl (h ▸ List.mem_cons_self _ _)
        · rcases ih _ h with h | h
          · exact Or.inl (List.mem_cons_of_mem _ h)
          · exact Or.inr h

theorem replaceAll_eq_self {m : JSString → Option Nat} {rep : JSString} :
    ∀ (s : JSString), (∀ t, t <:+ s → m t = none) → replaceAll m rep 0 s = s := by
  intro s
  induction s with
  | nil => intro _; rfl
  | cons c cs ih =>
    intro h
    rw [replaceAll_cons_none (h _ (List.suffix_refl _)), ih]
    intro t ht
    exact h t (ht.trans (List.suffix_cons c cs))

/-! ## Markup and entities in a cleaned title -/

theorem noTag_nil : NoTag [] := by
  intro a b h
  simp at h

theorem noTag_cons {c : Nat} {cs : JSString} :
    NoTag (c :: cs) ↔ (c = cLt → cGt ∉ cs) ∧ NoTag cs := by
  constructor
  · intro h
    refine ⟨fun hc => h [] cs (by simp [hc]), fun a b hab => h (c :: a) b (by simp [hab])⟩
  · rintro ⟨h1, h2⟩ a b hab
    cases a with
    | nil =>
      simp only [List.nil_append, List.cons.injEq] at hab
      exact hab.2 ▸ h1 hab.1
    | cons a0 a =>
      simp only [List.cons_append, List.cons.injEq] at hab
      exact h2 a b hab.2

theorem noTag_of_part {s t : JSString} (h : NoTag s) (ht : t <:+: s) : NoTag t := by
  obtain ⟨u, v, rfl⟩ := ht
  intro a b hab
  have := h (u ++ a) (b ++ v) (by simp [hab])
  exact fun hb => this (List.mem_append_left _ hb)

theorem tagMatch_eq_none_iff {c : Nat} {cs : JSString} :
    tagMatch (c :: cs) = none ↔ (c = cLt → cGt ∉ cs) := by
  simp only [tagMatch]
  split_ifs with h
  · simp [h.1, h.2]
  · simp only [true_iff]
    intro hc hm
    exact h ⟨hc, hm⟩

theorem noTag_replaceAll_tagMatch :
    ∀ (s : JSString) (k : Nat), NoTag (replaceAll tagMatch [cSp] k s) := by
  intro s
  induction s with
  | nil => intro k; rw [replaceAll_nil]; exact noTag_nil
  | cons c cs ih =>
    intro k
    cases k with
    | succ k => simpa [replaceAll] using ih k
    | zero =>
      simp only [replaceAll]
      cases hm : tagMatch (c :: cs) with
      | some n =>
        simp only [List.singleton_append]
        exact noTag_cons.2 ⟨fun hc => absurd hc (by decide), ih _⟩
      | none =>
        simp only
        refine noTag_cons.2 ⟨fun hc hmem => ?_, ih _⟩
        rcases mem_replaceAll _ _ hmem with h | h
        · exact tagMatch_eq_none_iff.1 hm hc h
        · simp at h

theorem noTag_stripTags (s : JSString) : NoTag (stripTags s) :=
  noTag_replaceAll_tagMatch s 0

theorem stripTags_eq_self {s : JSString} (h : NoTag s) : stripTags s = s := by
  apply replaceAll_eq_self
  intro t ht
  cases t with
  | nil => rfl
  | cons c cs =>
    exact tagMatch_eq_none_iff.2 (noTag_cons.1 (noTag_of_part h ht.isInfix)).1

theorem noTag_replaceAll_space {m : JSString → Option Nat} :
    ∀ (s : JSString) (k : Nat), NoTag s → NoTag (replaceAll m [cSp] k s) := by
  intro s
  induction s with
  | nil => intro k _; rw [replaceAll_nil]; exact noTag_nil
  | cons c cs ih =>
    intro k h
    obtain ⟨h1, h2⟩ := noTag_cons.1 h
    cases k with
    | succ k => simpa [replaceAll] using ih k h2
    | zero =>
      simp only [replaceAll]
      split
      · simp only [List.singleton_append]
        exact noTag_cons.2 ⟨fun hc => absurd hc (by decide), ih _ h2⟩
      · refine noTag_cons.2 ⟨fun hc hmem => ?_, ih _ h2⟩
        rcases mem_replaceAll _ _ hmem with h | h
        · exact h1 hc h
        · simp at h

theorem trim_part (s : JSString) : trim s <:+: s :=
  (( List.rdropWhile_prefix _ _).isInfix).trans (List.dropWhile_suffix _).isInfix

theorem litMatch_eq_none {pat s : JSString} {c : Nat} (hp : pat.head? = some c) (hs : c ∉ s) :
    litMatch pat s = none := by
  cases pat with
  | nil => simp at hp
  | cons p ps =>
    simp only [List.head?_cons, Option.some.injEq] at hp
    subst hp
    cases s with
    | nil => simp [litMatch, List.isPrefixOf]
    | cons d ds =>
      have : p ≠ d := fun h => hs (h ▸ List.mem_cons_self _ _)
      simp [litMatch, List.isPrefixOf, this]

theorem replaceLit_eq_self {pat rep s : JSString} {c : Nat} (hp : pat.head? = some c)
    (hs : c ∉ s) : replaceLit pat rep s = s := by
  apply replaceAll_eq_self
  intro t ht
  exact litMatch_eq_none hp (fun h => hs (ht.subset h))

theorem decodeEntities_eq_self {s : JSString} (hs : cAmp ∉ s) : decodeEntities s = s := by
  have e : ∀ pat rep : JSString, pat.head? = some cAmp → replaceLit pat rep s = s :=
    fun pat rep hp => replaceLit_eq_self hp hs
  simp only [decodeEntities]
  rw [e _ _ (by decide), e _ _ (by decide), e _ _ (by decide), e _ _ (by decide),
    e _ _ (by decide), e _ _ (by decide), e _ _ (by decide), e _ _ (by decide),
    e _ _ (by decide), e _ _ (by decide), e _ _ (by decide)]

/-! ## White space in a cleaned title -/

theorem drop_length_takeWhile (p : Nat → Bool) (s : JSString) :
    s.drop (s.takeWhile p).length = s.dropWhile p := by
  induction s with
  | nil => rfl
  | cons c cs ih =>
    by_cases h : p c
    · simp [List.takeWhile_cons, List.dropWhile_cons, h, ih]
    · simp [List.takeWhile_cons, List.dropWhile_cons, h]

theorem head?_dropWhile_false (p : Nat → Bool) (s : JSString) :
    ∀ d ∈ (s.dropWhile p).head?, p d = false := by
  intro d hd
  have := List.head?_dropWhile_not p s
  rw [Option.mem_def.1 hd] at this
  exact this

theorem dropWhile_eq_self_of_head {p : Nat → Bool} {s : JSString}
    (h : ∀ d ∈ s.head?, p d = false) : s.dropWhile p = s := by
  cases s with
  | nil => rfl
  | cons c cs => simp [List.dropWhile_cons, h c (by simp)]

theorem collapse_cons_ws {c : Nat} {cs : JSString} (h : isWhiteSpace c = true) :
    collapseWhiteSpace (c :: cs) = cSp :: collapseWhiteSpace (cs.dropWhile isWhiteSpace) := by
  have hm : wsMatch (c :: cs) = some ((cs.takeWhile isWhiteSpace).length + 1) := by
    simp [wsMatch, List.takeWhile_cons, h]
  rw [collapseWhiteSpace, replaceAll_cons_some hm]
  simp [collapseWhiteSpace, drop_length_takeWhile]

theorem collapse_cons_not {c : Nat} {cs : JSString} (h : isWhiteSpace c = false) :
    collapseWhiteSpace (c :: cs) = c :: collapseWhiteSpace cs := by
  have hm : wsMatch (c :: cs) = none := by
    simp [wsMatch, List.takeWhile_cons, h]
  rw [collapseWhiteSpace, replaceAll_cons_none hm]
  rfl

theorem wsNormal_of_part {s t : JSString} (h : WsNormal s) (ht : t <:+: s) : WsNormal t :=
  ⟨fun c hc => h.1 c (ht.subset hc), List.Chain'.infix h.2 ht⟩

theorem head?_collapse_not (s : JSString) (h : ∀ d ∈ s.head?, isWhiteSpace d = false) :
    ∀ d ∈ (collapseWhiteSpace s).head?, isWhiteSpace d = false := by
  cases s with
  | nil => intro d hd; simp [collapseWhiteSpace, replaceAll] at hd
  | cons c cs =>
    have hc : isWhiteSpace c = false := h c (by simp)
    rw [collapse_cons_not hc]
    intro d hd
    simp only [List.head?_cons, Option.mem_def, Option.some.injEq] at hd
    exact hd ▸ hc

theorem wsNormal_collapse_aux :
    ∀ (n : Nat) (s : JSString), s.length ≤ n → WsNormal (collapseWhiteSpace s) := by
  intro n
  induction n with
  | zero =>
    intro s hs
    have : s = [] := List.length_eq_zero.1 (Nat.le_zero.1 hs)
    subst this
    exact ⟨by simp [collapseWhiteSpace, replaceAll], by simp [collapseWhiteSpace, replaceAll]⟩
  | succ n ih =>
    intro s hn
    cases s with
    | nil => exact ⟨by simp [collapseWhiteSpace, replaceAll], by simp [collapseWhiteSpace, replaceAll]⟩
    | cons c cs =>
      simp only [List.length_cons, Nat.add_le_add_iff_right] at hn
      by_cases hc : isWhiteSpace c = true
      · rw [collapse_cons_ws hc]
        have hlen : (cs.dropWhile isWhiteSpace).length ≤ n :=
          le_trans (List.dropWhile_suffix (l := cs) isWhiteSpace).length_le hn
        have ih' := ih (cs.dropWhile isWhiteSpace) hlen
        refine ⟨?_, ?_⟩
        · intro d hd hw
          rcases List.mem_cons.1 hd with h | h
          · exact h
          · exact ih'.1 d h hw
        · refine List.chain'_cons'.2 ⟨fun d hd hh => ?_, ih'.2⟩
          have := head?_collapse_not _ (head?_dropWhile_false isWhiteSpace cs) d hd
          simp [this] at hh
      · have hc' : isWhiteSpace c = false := by simpa using hc
        rw [collapse_cons_not hc']
        have ih' := ih cs hn
        refine ⟨?_, ?_⟩
        · intro d hd hw
          rcases List.mem_cons.1 hd with h | h
          · rw [h, hc'] at hw; exact absurd hw (by simp)
          · exact ih'.1 d h hw
        · exact List.chain'_cons'.2 ⟨fun d _ hh => by simp [hc'] at hh, ih'.2⟩

theorem wsNormal_collapse (s : JSString) : WsNormal (collapseWhiteSpace s) :=
  wsNormal_collapse_aux s.length s le_rfl

theorem collapse_eq_self {s : JSString} (h : WsNormal s) : collapseWhiteSpace s = s := by
  induction s with
  | nil => rfl
  | cons c cs ih =>
    have hcs : WsNormal cs := wsNormal_of_part h (List.suffix_cons c cs).isInfix
    by_cases hc : isWhiteSpace c = true
    · rw [collapse_cons_ws hc]
      have h32 : c = cSp := h.1 c (List.mem_cons_self _ _) hc
      have hhead : ∀ d ∈ cs.head?, isWhiteSpace d = false := by
        intro d hd
        have := (List.chain'_cons'.1 h.2).1 d hd
        simpa [hc] using this
      rw [dropWhile_eq_self_of_head hhead, ih hcs, h32]
    · have hc' : isWhiteSpace c = false := by simpa using hc
      rw [collapse_cons_not hc', ih hcs]

theorem trim_trim (s : JSString) : trim (trim s) = trim s := by
  have h1 : (trim s).dropWhile isWhiteSpace = trim s := by
    apply dropWhile_eq_self_of_head
    intro d hd
    have hp : trim s <+: s.dropWhile isWhiteSpace := List.rdropWhile_prefix _ _
    obtain ⟨t, ht⟩ := hp
    apply head?_dropWhile_false isWhiteSpace s d
    rw [← ht]
    cases hts : trim s with
    | nil => rw [hts] at hd; simp at hd
    | cons x xs => rw [hts] at hd; simpa using hd
  show List.rdropWhile isWhiteSpace ((trim s).dropWhile isWhiteSpace) = trim s
  rw [h1]
  exact List.rdropWhile_idempotent _ _

/-! ## Idempotence of `cleanTitle` -/

theorem hasTag_eq_false_iff (s : JSString) : hasTag s = false ↔ NoTag s := by
  induction s with
  | nil => simp [hasTag, noTag_nil]
  | cons c cs ih =>
    rw [noTag_cons, ← ih]
    simp only [hasTag, Bool.or_eq_false_iff, Bool.and_eq_false_iff]
    constructor
    · rintro ⟨h1, h2⟩
      refine ⟨fun hc hm => ?_, h2⟩
      rcases h1 with h1 | h1
      · simp [hc] at h1
      · simp [hm] at h1
    · rintro ⟨h1, h2⟩
      refine ⟨?_, h2⟩
      by_cases hc : c = cLt
      · right
        simpa using h1 hc
      · left
        simpa using hc

theorem includes_eq_false_iff {s pat : JSString} :
    includes s pat = false ↔ ∀ t, t <:+ s → ¬ pat <+: t := by
  simp [includes, List.mem_tails]

theorem not_includes_of_not_mem {s pat : JSString} {c : Nat} (hp : pat.head? = some c)
    (hs : c ∉ s) : includes s pat = false := by
  rw [includes_eq_false_iff]
  rintro t ht ⟨r, hr⟩
  cases pat with
  | nil => simp at hp
  | cons p ps =>
    simp only [List.head?_cons, Option.some.injEq] at hp
    subst hp
    exact hs (ht.subset (hr ▸ List.mem_cons_self _ _))

theorem replaceLit_eq_self_of_not_includes {pat rep s : JSString}
    (h : includes s pat = false) : replaceLit pat rep s = s := by
  apply replaceAll_eq_self
  intro t ht
  simp [litMatch, includes_eq_false_iff.1 h t ht]

theorem noEntity_of_not_mem {s : JSString} (hs : cAmp ∉ s) : NoEntity s := by
  intro e he
  apply not_includes_of_not_mem _ hs
  revert e
  decide

theorem decodeEntities_eq_self_of_noEntity {s : JSString} (h : NoEntity s) :
    decodeEntities s = s := by
  have e : ∀ pat rep : JSString, pat ∈ entities → replaceLit pat rep s = s :=
    fun pat rep hp => replaceLit_eq_self_of_not_includes (h pat hp)
  simp only [decodeEntities]
  rw [e _ _ (by decide), e _ _ (by decide), e _ _ (by decide), e _ _ (by decide),
    e _ _ (by decide), e _ _ (by decide), e _ _ (by decide), e _ _ (by decide),
    e _ _ (by decide), e _ _ (by decide), e _ _ (by decide)]

theorem wsNormal_cleanTitle (s : JSString) : WsNormal (cleanTitle s) := by
  unfold cleanTitle
  split_ifs
  · exact ⟨by simp, by simp⟩
  · exact wsNormal_of_part (wsNormal_collapse _) (trim_part _)

theorem trim_cleanTitle (s : JSString) : trim (cleanTitle s) = cleanTitle s := by
  unfold cleanTitle
  split_ifs
  · rfl
  · exact trim_trim _

/-- A string free of tags and entities that is in white space normal form and
trimmed is left as it is by `cleanTitle`. -/
theorem cleanTitle_eq_self {t : JSString} (h1 : NoTag t) (h2 : NoEntity t) (h3 : WsNormal t)
    (h4 : trim t = t) : cleanTitle t = t := by
  unfold cleanTitle
  split_ifs with h
  · exact h.symm
  · rw [stripTags_eq_self h1, decodeEntities_eq_self_of_noEntity h2, collapse_eq_self h3, h4]

theorem cleanTitle_idem_of_clean (s : JSString) (h1 : NoTag (cleanTitle s))
    (h2 : NoEntity (cleanTitle s)) : cleanTitle (cleanTitle s) = cleanTitle s :=
  cleanTitle_eq_self h1 h2 (wsNormal_cleanTitle s) (trim_cleanTitle s)

theorem not_mem_cleanTitle_of_no_amp {s : JSString} (hs : cAmp ∉ s) :
    cAmp ∉ cleanTitle s ∧ NoTag (cleanTitle s) := by
  unfold cleanTitle
  split_ifs
  · exact ⟨by simp, noTag_nil⟩
  · have h1 : cAmp ∉ stripTags s := by
      intro h
      rcases mem_replaceAll _ _ h with h | h
      · exact hs h
      · simp at h
    rw [decodeEntities_eq_self h1]
    constructor
    · intro h
      rcases mem_replaceAll _ _ ((trim_part _).subset h) with h | h
      · exact h1 h
      · simp at h
    · exact noTag_of_part (noTag_replaceAll_space _ _ (noTag_stripTags s)) (trim_part _)

theorem cleanTitle_idem_of_no_amp (s : JSString) (hs : cAmp ∉ s) :
    cleanTitle (cleanTitle s) = cleanTitle s :=
  cleanTitle_idem_of_clean s (not_mem_cleanTitle_of_no_amp hs).2
    (noEntity_of_not_mem (not_mem_cleanTitle_of_no_amp hs).1)

/-! ## The discovery loop -/

theorem execAll_nil (m : JSString → Option (JSString × Nat)) (k i : Nat) :
    execAll m k i [] = [] := by
  cases k <;> rfl

theorem execAll_index_ge {m : JSString → Option (JSString × Nat)} :
    ∀ (s : JSString) (k i : Nat), ∀ r ∈ execAll m k i s, i ≤ r.1 := by
  intro s
  induction s with
  | nil => intro k i r h; simp [execAll_nil] at h
  | cons c cs ih =>
    intro k i r h
    cases k with
    | succ k =>
      simp only [execAll] at h
      exact Nat.le_of_succ_le (ih _ _ r h)
    | zero =>
      simp only [execAll] at h
      split at h
      · rcases List.mem_cons.1 h with h | h
        · simp [h]
        · exact Nat.le_of_succ_le (ih _ _ r h)
      · exact Nat.le_of_succ_le (ih _ _ r h)

theorem execAll_pairwise {m : JSString → Option (JSString × Nat)} :
    ∀ (s : JSString) (k i : Nat), (execAll m k i s).Pairwise (fun a b => a.1 < b.1) := by
  intro s
  induction s with
  | nil => intro k i; simp [execAll_nil]
  | cons c cs ih =>
    intro k i
    cases k with
    | succ k => simpa [execAll] using ih _ _
    | zero =>
      simp only [execAll]
      split
      · exact List.pairwise_cons.2 ⟨fun r hr => execAll_index_ge _ _ _ r hr, ih _ _⟩
      · exact ih _ _

theorem execAll_capture {m : JSString → Option (JSString × Nat)} :
    ∀ (s : JSString) (k i : Nat), ∀ r ∈ execAll m k i s,
      ∃ t n, t <:+ s ∧ m t = some (r.2, n) := by
  intro s
  induction s with
  | nil => intro k i r h; simp [execAll_nil] at h
  | cons c cs ih =>
    intro k i r h
    have step : r ∈ execAll m (k - 1) (i + 1) cs ∨ r ∈ execAll m 0 (i + 1) cs ∨
        (∃ n, r ∈ execAll m (n - 1) (i + 1) cs) →
        ∃ t n, t <:+ c :: cs ∧ m t = some (r.2, n) := by
      intro hh
      have : ∃ k', r ∈ execAll m k' (i + 1) cs := by
        rcases hh with hh | hh | ⟨n, hh⟩
        exacts [⟨_, hh⟩, ⟨_, hh⟩, ⟨_, hh⟩]
      obtain ⟨k', hk'⟩ := this
      obtain ⟨t, n, ht, hm⟩ := ih _ _ r hk'
      exact ⟨t, n, ht.trans (List.suffix_cons c cs), hm⟩
    cases k with
    | succ k =>
      simp only [execAll] at h
      exact step (Or.inl h)
    | zero =>
      simp only [execAll] at h
      split at h
      · rename_i cap n hm
        rcases List.mem_cons.1 h with h | h
        · exact ⟨c :: cs, n, List.suffix_refl _, by rw [hm, h]⟩
        · exact step (Or.inr (Or.inr ⟨_, h⟩))
      · exact step (Or.inr (Or.inl h))

theorem allUrls_pairwise (html : JSString) :
    (allUrls html).Pairwise (fun a b => a.position < b.position) := by
  unfold allUrls
  rw [List.pairwise_map]
  exact execAll_pairwise _ _ _

/-! ## The filtering loop -/

theorem firstOff_cons_ne {m : Candidate} {rest : List Candidate} {u0 u : JSString}
    (hcl : cleanUrl m.url = .ok u0) (hne : u0 ≠ u) :
    firstOff (m :: rest) u = firstOff rest u := by
  have : decide (cleanUrl m.url = .ok u) = false := by
    rw [hcl]
    simpa using hne
  simp [firstOff, List.find?_cons, this]

theorem firstOff_cons_eq {m : Candidate} {rest : List Candidate} {u0 : JSString}
    (hcl : cleanUrl m.url = .ok u0) :
    firstOff (m :: rest) u0 = some m.position := by
  simp [firstOff, List.find?_cons, hcl]

/-- The filtering loop adds to `potentialArticles` the deduplicated candidates
that pass the test of line 124. -/
theorem filterLoop_eq (toLowerCase : JSString → JSString) :
    ∀ (urls : List Candidate) (seen : List JSString) (acc res : List Candidate),
      filterLoop toLowerCase urls seen acc = .ok res →
      res = acc ++ (dedupEntries urls seen).filter (fun c => keepUrl toLowerCase c.url) := by
  intro urls
  induction urls with
  | nil =>
    intro seen acc res h
    simp only [filterLoop, Except.ok.injEq] at h
    simp [dedupEntries, h]
  | cons m rest ih =>
    intro seen acc res h
    simp only [filterLoop] at h
    simp only [dedupEntries]
    cases hcl : cleanUrl m.url with
    | error e => rw [hcl] at h; simp at h
    | ok u0 =>
      rw [hcl] at h
      simp only at h ⊢
      by_cases hseen : u0 ∈ seen
      · simp only [hseen, ↓reduceIte] at h ⊢
        exact ih _ _ _ h
      · simp only [hseen, ↓reduceIte] at h ⊢
        by_cases hkeep : keepUrl toLowerCase u0 = true
        · simp only [hkeep, ↓reduceIte] at h
          rw [ih _ _ _ h]
          simp [List.filter_cons, hkeep]
        · simp only [hkeep] at h
          rw [ih _ _ _ h]
          simp [List.filter_cons, hkeep]

/-- The deduplicated candidates have pairwise distinct URLs not in `seen`, each
at the position of the first entry of `urls` with the same cleaned URL, in the
order of `urls`; and every cleaned URL of `urls` not in `seen` has one. -/
theorem dedupEntries_spec :
    ∀ (urls : List Candidate) (seen : List JSString),
      (∀ c ∈ dedupEntries urls seen, c.url ∉ seen ∧ firstOff urls c.url = some c.position) ∧
      ((dedupEntries urls seen).map (fun c => c.url)).Nodup ∧
      ((dedupEntries urls seen).map (fun c => c.position)).Sublist
        (urls.map (fun c => c.position)) ∧
      (∀ m ∈ urls, ∀ u, cleanUrl m.url = .ok u → u ∉ seen →
        ∃ c ∈ dedupEntries urls seen, c.url = u) := by
  intro urls
  induction urls with
  | nil => intro seen; simp [dedupEntries]
  | cons m rest ih =>
    intro seen
    simp only [dedupEntries]
    cases hcl : cleanUrl m.url with
    | error e =>
      obtain ⟨h1, h2, h3, h4⟩ := ih seen
      refine ⟨?_, h2, h3.trans (List.sublist_cons_self _ _), ?_⟩
      · intro c hc
        refine ⟨(h1 c hc).1, ?_⟩
        simpa [firstOff, List.find?_cons, hcl] using (h1 c hc).2
      · intro m' hm' u hu hus
        rcases List.mem_cons.1 hm' with e' | e'
        · subst e'
          rw [hcl] at hu
          simp at hu
        · exact h4 m' e' u hu hus
    | ok u0 =>
      simp only
      by_cases hseen : u0 ∈ seen
      · simp only [hseen, ↓reduceIte]
        obtain ⟨h1, h2, h3, h4⟩ := ih seen
        refine ⟨?_, h2, h3.trans (List.sublist_cons_self _ _), ?_⟩
        · intro c hc
          obtain ⟨a, d⟩ := h1 c hc
          refine ⟨a, ?_⟩
          rw [firstOff_cons_ne hcl (fun e : u0 = c.url => a (e ▸ hseen))]
          exact d
        · intro m' hm' u hu hus
          rcases List.mem_cons.1 hm' with e | e
          · subst e
            rw [hcl] at hu
            simp only [Except.ok.injEq] at hu
            exact absurd (hu ▸ hseen) hus
          · exact h4 m' e u hu hus
      · simp only [hseen, ↓reduceIte]
        obtain ⟨h1, h2, h3, h4⟩ := ih (u0 :: seen)
        refine ⟨?_, ?_, ?_, ?_⟩
        · intro c hc
          rcases List.mem_cons.1 hc with e | e
          · subst e
            exact ⟨hseen, firstOff_cons_eq hcl⟩
          · obtain ⟨a, d⟩ := h1 c e
            refine ⟨fun x => a (List.mem_cons_of_mem _ x), ?_⟩
            rw [firstOff_cons_ne hcl (fun x : u0 = c.url => a (x ▸ List.mem_cons_self _ _))]
            exact d
        · simp only [List.map_cons, List.nodup_cons]
          refine ⟨?_, h2⟩
          intro hmem
          obtain ⟨c, hc, hcu⟩ := List.mem_map.1 hmem
          exact (h1 c hc).1 (hcu ▸ List.mem_cons_self _ _)
        · simp only [List.map_cons]
          exact h3.cons₂ _
        · intro m' hm' u hu hus
          by_cases hu0 : u = u0
          · exact ⟨⟨u0, m.position⟩, List.mem_cons_self _ _, hu0.symm⟩
          · rcases List.mem_cons.1 hm' with e | e
            · subst e
              rw [hcl] at hu
              simp only [Except.ok.injEq] at hu
              exact absurd hu.symm hu0
            · obtain ⟨c, hc, hcu⟩ := h4 m' e u hu
                (by simp only [List.mem_cons, not_or]; exact ⟨hu0, hus⟩)
              exact ⟨c, List.mem_cons_of_mem _ hc, hcu⟩

theorem dedupEntries_pairwise (html : JSString) :
    (dedupEntries (allUrls html) []).Pairwise (fun a b => a.position < b.position) := by
  have := (List.pairwise_map.2 (allUrls_pairwise html)).sublist
    (dedupEntries_spec (allUrls html) []).2.2.1
  exact List.pairwise_map.1 this

theorem potentialArticles_eq {toLowerCase : JSString → JSString} {html : JSString}
    {articles : List Candidate} (h : potentialArticles toLowerCase html = .ok articles) :
    articles = (dedupEntries (allUrls html) []).filter (fun c => keepUrl toLowerCase c.url) := by
  unfold potentialArticles at h
  cases hf : filterLoop toLowerCase (allUrls html) [] [] with
  | error e => rw [hf] at h; simp at h
  | ok res =>
    rw [hf] at h
    simp only [Except.ok.injEq] at h
    have hres := filterLoop_eq toLowerCase _ _ _ _ hf
    simp only [List.nil_append] at hres
    have hpw : res.Pairwise (fun a b => a.position < b.position) := by
      rw [hres]
      exact (dedupEntries_pairwise html).sublist (List.filter_sublist _)
    have hsorted : res.insertionSort (fun a b => a.position ≤ b.position) = res :=
      List.Sorted.insertionSort_eq (hpw.imp (fun hab => Nat.le_of_lt hab))
    rw [hsorted] at h
    rw [← h, hres]

theorem potentialArticles_spec {toLowerCase : JSString → JSString} {html : JSString}
    {articles : List Candidate} (h : potentialArticles toLowerCase html = .ok articles) :
    (∀ c ∈ articles, keepUrl toLowerCase c.url = true ∧
      firstOffset html c.url = some c.position) ∧
    (articles.map (fun c => c.url)).Nodup ∧
    articles.Pairwise (fun a b => a.position < b.position) ∧
    (∀ m ∈ allUrls html, ∀ u, cleanUrl m.url = .ok u →
      keepUrl toLowerCase u = true → ∃ c ∈ articles, c.url = u) := by
  have he := potentialArticles_eq h
  obtain ⟨h1, h2, _, h4⟩ := dedupEntries_spec (allUrls html) []
  subst he
  refine ⟨?_, ?_, ?_, ?_⟩
  · intro c hc
    rw [List.mem_filter] at hc
    exact ⟨hc.2, (h1 c hc.1).2⟩
  · exact h2.sublist ((List.filter_sublist _).map _)
  · exact (dedupEntries_pairwise html).sublist (List.filter_sublist _)
  · intro m hm u hu hk
    obtain ⟨c, hc, hcu⟩ := h4 m hm u hu (by simp)
    exact ⟨c, List.mem_filter.2 ⟨hc, by rw [hcu]; exact hk⟩, hcu⟩

/-- The filtering loop returns exactly when the clean-up of every URL returns. -/
theorem filterLoop_ok_iff (toLowerCase : JSString → JSString) :
    ∀ (urls : List Candidate) (seen : List JSString) (acc : List Candidate),
      (∃ res, filterLoop toLowerCase urls seen acc = .ok res) ↔
        ∀ m ∈ urls, ∃ u, cleanUrl m.url = .ok u := by
  intro urls
  induction urls with
  | nil => intro seen acc; simp [filterLoop]
  | cons m rest ih =>
    intro seen acc
    simp only [filterLoop, List.mem_cons, forall_eq_or_imp]
    cases hcl : cleanUrl m.url with
    | error e => simp
    | ok u0 =>
      simp only [Except.ok.injEq, exists_eq', true_and]
      by_cases hseen : u0 ∈ seen
      · simp only [hseen, ↓reduceIte]
        exact ih _ _
      · simp only [hseen, ↓reduceIte]
        by_cases hkeep : keepUrl toLowerCase u0 = true
        · simp only [hkeep, ↓reduceIte]
          exact ih _ _
        · simp only [hkeep]
          exact ih _ _

/-- The function `extractLatestStories` returns a list of stories exactly when
no URL found by the discovery, cut at its first `?`, contains `#`; otherwise
it throws. -/
theorem extractLatestStories_ok_iff (toLowerCase : JSString → JSString) (html : JSString) :
    (∃ stories, extractLatestStories toLowerCase html = .ok stories) ↔
      ∀ m ∈ allUrls html, ∃ u, cleanUrl m.url = .ok u := by
  rw [← filterLoop_ok_iff toLowerCase (allUrls html) [] []]
  unfold extractLatestStories potentialArticles
  cases filterLoop toLowerCase (allUrls html) [] [] with
  | error e => simp
  | ok res => simp

/-! ## The title loop -/

theorem storyLoop_eq (html : JSString) :
    ∀ (articles : List Candidate) (stories : List Story) (usedLinks : List JSString),
      stories.length ≤ 6 → (∀ c ∈ articles, c.url ∉ usedLinks) →
      (articles.map (fun c => c.url)).Nodup →
      storyLoop html articles stories usedLinks =
        (stories ++ resolveAll html articles).take 6 := by
  intro articles
  induction articles with
  | nil =>
    intro stories usedLinks hlen _ _
    simp [storyLoop, resolveAll, List.take_of_length_le hlen]
  | cons a rest ih =>
    intro stories usedLinks hlen hused hnd
    simp only [List.map_cons, List.nodup_cons] at hnd
    simp only [storyLoop]
    by_cases h6 : stories.length < 6
    · rw [if_pos h6, if_neg (hused a (List.mem_cons_self _ _))]
      cases hs : storyFor html a with
      | none =>
        simp only
        rw [ih stories usedLinks hlen (fun c hc => hused c (List.mem_cons_of_mem _ hc)) hnd.2]
        simp [resolveAll, List.filterMap_cons, hs]
      | some story =>
        simp only
        rw [ih (stories ++ [story]) (a.url :: usedLinks) (by simp; omega) ?_ hnd.2]
        · simp [resolveAll, List.filterMap_cons, hs]
        · intro c hc hmem
          rcases List.mem_cons.1 hmem with e | e
          · exact hnd.1 (List.mem_map.2 ⟨c, hc, e⟩)
          · exact hused c (List.mem_cons_of_mem _ hc) e
    · rw [if_neg h6]
      have : stories.length = 6 := by omega
      exact (List.take_left' this).symm

theorem extractLatestStories_eq {toLowerCase : JSString → JSString} {html : JSString}
    {stories : List Story} (h : extractLatestStories toLowerCase html = .ok stories) :
    ∃ articles, potentialArticles toLowerCase html = .ok articles ∧
      stories = (resolveAll html articles).take 6 := by
  unfold extractLatestStories at h
  cases hp : potentialArticles toLowerCase html with
  | error e => rw [hp] at h; simp at h
  | ok articles =>
    rw [hp] at h
    simp only [Except.ok.injEq] at h
    refine ⟨articles, rfl, ?_⟩
    rw [← h, storyLoop_eq html articles [] [] (by simp) (by simp) (potentialArticles_spec hp).2.1]
    simp

theorem mem_resolveAll {html : JSString} {articles : List Candidate} {story : Story}
    (h : story ∈ resolveAll html articles) :
    ∃ c ∈ articles, storyFor html c = some story := by
  simpa [resolveAll, List.mem_filterMap] using h

theorem storyFor_some {html : JSString} {c : Candidate} {story : Story}
    (h : storyFor html c = some story) :
    story.link = c.url ∧ validTitle story.title = true ∧
      ∃ raw, resolveTitle html c = some raw ∧ story.title = cleanTitle raw := by
  unfold storyFor at h
  simp only at h
  split_ifs at h with h1 h2
  simp only [Option.some.injEq] at h
  subst h
  refine ⟨rfl, h2, ?_⟩
  cases hr : resolveTitle html c with
  | none => rw [hr] at h1; simp [truthy] at h1
  | some raw => exact ⟨raw, rfl, by simp⟩

/-! ## The sample document -/

theorem sampleDocument_stories :
    extractLatestStories asciiToLowerCase sampleDocument = .ok sampleStories := by
  decide

theorem filter_url_eq_singleton :
    ∀ (l : List Candidate) (c : Candidate), (l.map (fun c => c.url)).Nodup → c ∈ l →
      l.filter (fun d => decide (d.url = c.url)) = [c] := by
  intro l
  induction l with
  | nil => intro c _ hc; simp at hc
  | cons a rest ih =>
    intro c hnd hc
    simp only [List.map_cons, List.nodup_cons] at hnd
    rcases List.mem_cons.1 hc with e | e
    · subst e
      have : rest.filter (fun d => decide (d.url = c.url)) = [] := by
        rw [List.filter_eq_nil_iff]
        intro d hd hdu
        exact hnd.1 (List.mem_map.2 ⟨d, hd, by simpa using hdu⟩)
      simp [List.filter_cons, this]
    · have hne : a.url ≠ c.url := fun h => hnd.1 (List.mem_map.2 ⟨c, e, h.symm⟩)
      simp [List.filter_cons, hne, ih c hnd.2 e]

theorem firstOff_le :
    ∀ (l : List Candidate) (m : Candidate) (u : JSString),
      l.Pairwise (fun a b => a.position < b.position) → m ∈ l → cleanUrl m.url = .ok u →
      ∃ p, firstOff l u = some p ∧ p ≤ m.position := by
  intro l
  induction l with
  | nil => intro m u _ hm; simp at hm
  | cons a rest ih =>
    intro m u hpw hm hu
    rw [List.pairwise_cons] at hpw
    by_cases ha : cleanUrl a.url = .ok u
    · refine ⟨a.position, by simp [firstOff, List.find?_cons, ha], ?_⟩
      rcases List.mem_cons.1 hm with e | e
      · rw [e]
      · exact Nat.le_of_lt (hpw.1 m e)
    · rcases List.mem_cons.1 hm with e | e
      · exact absurd (e ▸ hu) ha
      · obtain ⟨p, hp, hle⟩ := ih m u hpw.2 e hu
        exact ⟨p, by simpa [firstOff, List.find?_cons, ha] using hp, hle⟩

theorem storyLoop_append (html : JSString) (post : List Candidate) :
    ∀ (pre : List Candidate) (stories : List Story) (usedLinks : List JSString),
      6 ≤ (storyLoop html pre stories usedLinks).length →
      storyLoop html (pre ++ post) stories usedLinks = storyLoop html pre stories usedLinks := by
  intro pre
  induction pre with
  | nil =>
    intro stories usedLinks h
    simp only [storyLoop] at h
    cases post with
    | nil => rfl
    | cons a rest => simp [storyLoop, Nat.not_lt.2 h]
  | cons a rest ih =>
    intro stories usedLinks h
    simp only [List.cons_append, storyLoop] at h ⊢
    by_cases h6 : stories.length < 6
    · simp only [h6, ↓reduceIte] at h ⊢
      by_cases hu : a.url ∈ usedLinks
      · simp only [hu, ↓reduceIte] at h ⊢
        exact ih _ _ h
      · simp only [hu, ↓reduceIte] at h ⊢
        cases hs : storyFor html a with
        | none => rw [hs] at h; exact ih _ _ h
        | some story => rw [hs] at h; exact ih _ _ h
    · simp only [h6, ↓reduceIte]

/-! ## Where the code units of a title come from -/

theorem mem_of_mem_substring {s : JSString} {a b x : Nat} (h : x ∈ substring s a b) : x ∈ s :=
  List.mem_of_mem_drop (List.mem_of_mem_take h)

theorem mem_of_mem_split {sep : Nat} :
    ∀ (s : JSString), ∀ p ∈ split sep s, ∀ x ∈ p, x ∈ s := by
  intro s
  induction s with
  | nil => intro p hp x hx; simp [split] at hp; simp [hp] at hx
  | cons c cs ih =>
    intro p hp x hx
    simp only [split] at hp
    by_cases hc : c = sep
    · rw [if_pos hc] at hp
      rcases List.mem_cons.1 hp with e | e
      · simp [e] at hx
      · exact List.mem_cons_of_mem _ (ih p e x hx)
    · rw [if_neg hc] at hp
      cases hs : split sep cs with
      | nil =>
        rw [hs] at hp
        simp only [List.mem_singleton] at hp
        rw [hp] at hx
        simp only [List.mem_singleton] at hx
        simp [hx]
      | cons q qs =>
        rw [hs] at hp
        simp only at hp
        rcases List.mem_cons.1 hp with e | e
        · rw [e] at hx
          rcases List.mem_cons.1 hx with e' | e'
          · simp [e']
          · exact List.mem_cons_of_mem _ (ih q (by simp [hs]) x e')
        · exact List.mem_cons_of_mem _ (ih p (by simp [hs, e]) x hx)

theorem mem_of_mem_cleanUrl {url u : JSString} (h : cleanUrl url = .ok u) :
    ∀ x ∈ u, x ∈ url := by
  intro x hx
  unfold cleanUrl at h
  simp only at h
  split_ifs at h with h1 h2 h2
  · simp only [Except.ok.injEq] at h
    subst h
    have hx' : x ∈ (split cQuestion url).headD [] :=
      ( List.rdropWhile_prefix _ _).subset (( List.rdropWhile_prefix _ _).subset hx)
    cases hs : split cQuestion url with
    | nil => simp [hs] at hx'
    | cons p ps =>
      rw [hs] at hx'
      have hp : p ∈ split cQuestion url := by simp [hs]
      exact mem_of_mem_split url p hp x hx'
  · simp only [Except.ok.injEq] at h
    subst h
    exact ( List.rdropWhile_prefix _ _).subset (( List.rdropWhile_prefix _ _).subset hx)

theorem captureSub_delimMatch (pre opn : JSString) (stop : Nat) (close : JSString) :
    CaptureSub (delimMatch pre opn stop close) := by
  intro t cap n h x hx
  unfold delimMatch at h
  simp only at h
  split_ifs at h
  simp only [Option.some.injEq, Prod.mk.injEq] at h
  rw [← h.1] at hx
  exact List.mem_of_mem_drop (List.mem_of_mem_take hx)

theorem captureSub_elementMatch (opn : JSString → Option Nat) (close : JSString → Bool)
    (closeLen : Nat) : CaptureSub (elementMatch opn close closeLen) := by
  intro t cap n h x hx
  unfold elementMatch at h
  cases ho : opn t with
  | none => rw [ho] at h; simp at h
  | some k =>
    rw [ho] at h
    simp only at h
    cases hd : t.drop k with
    | nil => rw [hd] at h; simp at h
    | cons c cs =>
      rw [hd] at h
      simp only at h
      split_ifs at h
      cases hb : bodyEnd close false (c :: cs) with
      | none => rw [hb] at h; simp at h
      | some e =>
        rw [hb] at h
        simp only [Option.some.injEq, Prod.mk.injEq] at h
        rw [← h.1] at hx
        exact List.mem_of_mem_drop (hd ▸ List.mem_of_mem_take hx)

theorem mem_of_mem_execAll_capture {m : JSString → Option (JSString × Nat)} (hm : CaptureSub m)
    {s : JSString} {k i : Nat} {r : Nat × JSString} (hr : r ∈ execAll m k i s) :
    ∀ x ∈ r.2, x ∈ s := by
  intro x hx
  obtain ⟨t, n, ht, hmt⟩ := execAll_capture s k i r hr
  exact ht.subset (hm t r.2 n hmt x hx)

theorem not_mem_cleanTitle {s : JSString} (hs : cAmp ∉ s) : cAmp ∉ cleanTitle s :=
  (not_mem_cleanTitle_of_no_amp hs).1

theorem mem_sortByLengthDesc {l : List JSString} {t : JSString}
    (h : t ∈ sortByLengthDesc l) : t ∈ l :=
  (List.perm_insertionSort _ l).subset h

theorem findLinkText_no_amp {html : JSString} (hh : cAmp ∉ html) {position : Nat}
    {t : JSString} (h : findLinkText html position = some t) : cAmp ∉ t := by
  unfold findLinkText at h
  split at h
  · simp at h
  · split at h
    · simp at h
    · split_ifs at h
      simp only [Option.some.injEq] at h
      rw [← h]
      exact not_mem_cleanTitle (fun hx => hh (mem_of_mem_substring hx))

theorem nearbyLoop_no_amp {area : JSString} (ha : cAmp ∉ area) :
    ∀ (patterns : List (JSString → Option (JSString × Nat))),
      (∀ p ∈ patterns, CaptureSub p) → ∀ t, nearbyLoop area patterns = some t → cAmp ∉ t := by
  intro patterns
  induction patterns with
  | nil => intro _ t h; simp [nearbyLoop] at h
  | cons p rest ih =>
    intro hp t h
    simp only [nearbyLoop] at h
    cases hs : sortByLengthDesc (nearbyTitles p area) with
    | nil =>
      rw [hs] at h
      exact ih (fun q hq => hp q (List.mem_cons_of_mem _ hq)) t h
    | cons title more =>
      rw [hs] at h
      simp only [Option.some.injEq] at h
      have hmem : t ∈ nearbyTitles p area :=
        mem_sortByLengthDesc (by rw [hs, h]; exact List.mem_cons_self _ _)
      simp only [nearbyTitles, List.mem_filter, List.mem_map] at hmem
      obtain ⟨⟨r, hr, hrt⟩, _⟩ := hmem
      rw [← hrt]
      exact not_mem_cleanTitle (fun hx =>
        ha (mem_of_mem_execAll_capture (hp p (List.mem_cons_self _ _)) hr _ hx))

theorem findNearbyTitle_no_amp {html : JSString} (hh : cAmp ∉ html) {position : Nat}
    {t : JSString} (h : findNearbyTitle html position = some t) : cAmp ∉ t := by
  unfold findNearbyTitle at h
  refine nearbyLoop_no_amp (fun hx => hh (mem_of_mem_substring hx)) _ ?_ t h
  intro p hp
  simp only [List.mem_cons, List.mem_singleton, List.not_mem_nil, or_false] at hp
  rcases hp with e | e | e | e <;> subst e
  · exact captureSub_elementMatch _ _ _
  · exact captureSub_delimMatch _ _ _ _
  · exact captureSub_delimMatch _ _ _ _
  · exact captureSub_elementMatch _ _ _

theorem findTitleInLargerArea_no_amp {html : JSString} (hh : cAmp ∉ html) {position : Nat}
    {t : JSString} (h : findTitleInLargerArea html position = some t) : cAmp ∉ t := by
  unfold findTitleInLargerArea at h
  simp only at h
  split at h
  · rename_i text more hs
    simp only [Option.some.injEq] at h
    have hmem := mem_sortByLengthDesc (hs ▸ List.mem_cons_self text more)
    simp only [List.mem_filter, List.mem_map] at hmem
    obtain ⟨⟨r, hr, hrt⟩, _⟩ := hmem
    rw [← h, ← hrt]
    exact not_mem_cleanTitle (fun hx => hh (mem_of_mem_substring
      (mem_of_mem_execAll_capture (captureSub_delimMatch _ _ _ _) hr _ hx)))
  · simp at h

theorem canon_eq_amp {c : Nat} (h : canon c = cAmp) : c = cAmp := by
  unfold canon at h
  split_ifs at h with hc
  · simp only [cAmp] at h; omega
  · exact h

theorem mem_capitalizeWords :
    ∀ (s : JSString) (b : Bool), cAmp ∈ capitalizeWords b s → cAmp ∈ s := by
  intro s
  induction s with
  | nil => intro b h; simp [capitalizeWords] at h
  | cons c cs ih =>
    intro b h
    simp only [capitalizeWords, List.mem_cons] at h
    rcases h with h | h
    · split_ifs at h
      · simp [canon_eq_amp h.symm]
      · simp [h]
    · exact List.mem_cons_of_mem _ (ih _ h)

theorem mem_slugLoop (parts : List JSString) :
    ∀ n, slugLoop parts n = [] ∨ slugLoop parts n ∈ parts := by
  intro n
  induction n with
  | zero => left; rfl
  | succ i ih =>
    simp only [slugLoop]
    split_ifs with h
    · by_cases hi : i < parts.length
      · right
        rw [List.getD_eq_getElem?_getD, List.getElem?_eq_getElem hi]
        exact List.getElem_mem _
      · left
        rw [List.getD_eq_getElem?_getD, List.getElem?_eq_none (Nat.le_of_not_lt hi)]
        rfl
    · exact ih

theorem generateTitleFromUrl_no_amp {url : JSString} (hu : cAmp ∉ url) {t : JSString}
    (h : generateTitleFromUrl url = some t) : cAmp ∉ t := by
  unfold generateTitleFromUrl at h
  simp only at h
  split_ifs at h
  simp only [Option.some.injEq] at h
  rw [← h]
  intro hx
  have h1 := mem_capitalizeWords _ _ ((trim_part _).subset hx)
  simp only [replaceDashes, List.mem_map] at h1
  obtain ⟨y, hy, hy2⟩ := h1
  split_ifs at hy2
  · simp [cSp, cAmp] at hy2
  · subst hy2
    rcases mem_slugLoop (split cSlash url) (split cSlash url).length with e | e
    · rw [e] at hy; simp at hy
    · exact hu (mem_of_mem_split url _ e _ hy)

theorem resolveTitle_no_amp {html : JSString} (hh : cAmp ∉ html) {c : Candidate}
    (hc : cAmp ∉ c.url) {t : JSString} (h : resolveTitle html c = some t) : cAmp ∉ t := by
  unfold resolveTitle at h
  simp only at h
  split_ifs at h
  · unfold jsOr at h
    split_ifs at h
    · exact findTitleInLargerArea_no_amp hh h
    · exact generateTitleFromUrl_no_amp hc h
  · unfold extractTitleForArticle at h
    simp only at h
    split_ifs at h
    · exact findLinkText_no_amp hh h
    · exact findNearbyTitle_no_amp hh h

theorem mem_allUrls_url {html : JSString} {m : Candidate} (hm : m ∈ allUrls html) :
    ∀ x ∈ m.url, x ∈ html := by
  simp only [allUrls, List.mem_map] at hm
  obtain ⟨r, hr, hrm⟩ := hm
  rw [← hrm]
  exact mem_of_mem_execAll_capture (captureSub_delimMatch _ _ _ _) hr

theorem firstOff_some {urls : List Candidate} {u : JSString} {p : Nat}
    (h : firstOff urls u = some p) : ∃ m ∈ urls, cleanUrl m.url = .ok u ∧ m.position = p := by
  simp only [firstOff, Option.map_eq_some'] at h
  obtain ⟨m, hm, hmp⟩ := h
  exact ⟨m, List.mem_of_find?_eq_some hm, by simpa using List.find?_some hm, hmp⟩

/-! ## The title made from the URL -/

theorem slugLoop_eq (parts : List JSString) :
    ∀ n, n ≤ parts.length → slugLoop parts n = (lastMeaningful (parts.take n)).getD [] := by
  intro n
  induction n with
  | zero => intro _; simp [slugLoop, lastMeaningful]
  | succ i ih =>
    intro hi
    have hlt : i < parts.length := hi
    have hget : parts.getD i [] = parts[i] := by
      rw [List.getD_eq_getElem?_getD, List.getElem?_eq_getElem hlt]
      rfl
    simp only [slugLoop, hget, lastMeaningful, List.take_succ, List.getElem?_eq_getElem hlt,
      Option.toList_some, List.filter_append]
    by_cases hm : meaningful parts[i] = true
    · simp [hm, List.filter_cons]
    · simp only [hm]
      rw [ih (Nat.le_of_lt hlt)]
      simp [lastMeaningful, List.filter_cons, hm]

theorem generateTitleFromUrl_eq (url : JSString) :
    generateTitleFromUrl url =
      match lastMeaningful (split cSlash url) with
      | none => none
      | some seg =>
        if 5 < seg.length then some (trim (capitalizeWords false (replaceDashes seg)))
        else none := by
  unfold generateTitleFromUrl
  simp only [slugLoop_eq _ _ le_rfl, List.take_length]
  cases lastMeaningful (split cSlash url) with
  | none => simp
  | some seg =>
    simp only [Option.getD_some]
    by_cases h5 : 5 < seg.length
    · have : seg ≠ [] := by
        intro e
        rw [e] at h5
        simp at h5
      simp [h5, this]
    · simp [h5]

theorem lastMeaningful_of_getLast? {parts : List JSString} {seg : JSString}
    (h : parts.getLast? = some seg) (hm : meaningful seg = true) :
    lastMeaningful parts = some seg := by
  obtain ⟨ys, rfl⟩ := List.getLast?_eq_some_iff.1 h
  simp [lastMeaningful, List.filter_append, List.filter_cons, hm]

theorem trim_eq_self {t : JSString} (h1 : ∀ c ∈ t.head?, isWhiteSpace c = false)
    (h2 : ∀ c ∈ t.getLast?, isWhiteSpace c = false) : trim t = t := by
  unfold trim
  rw [dropWhile_eq_self_of_head h1, List.rdropWhile_eq_self_iff]
  intro hl
  have := h2 (t.getLast hl) (by simp [List.getLast?_eq_getLast _ hl])
  simp [this]

theorem lower_not_dash {c : Nat} (h : 97 ≤ c ∧ c ≤ 122) : ¬ (c = 45 ∨ c = 95) := by omega

theorem replaceDashes_lower {w : JSString} (h : ∀ c ∈ w, 97 ≤ c ∧ c ≤ 122) :
    replaceDashes w = w := by
  unfold replaceDashes
  conv_rhs => rw [← List.map_id w]
  apply List.map_congr_left
  intro c hc
  simp [lower_not_dash (h c hc)]

theorem isWordChar_lower {c : Nat} (h : 97 ≤ c ∧ c ≤ 122) : isWordChar c = true := by
  simp [isWordChar, h.1, h.2]

theorem capitalizeWords_true_lower :
    ∀ (w t : JSString), (∀ c ∈ w, 97 ≤ c ∧ c ≤ 122) →
      capitalizeWords true (w ++ t) = w ++ capitalizeWords true t := by
  intro w
  induction w with
  | nil => intro t _; simp
  | cons c cs ih =>
    intro t h
    have hc := h c (List.mem_cons_self _ _)
    rw [List.cons_append, capitalizeWords, isWordChar_lower hc,
      ih t (fun d hd => h d (List.mem_cons_of_mem _ hd))]
    simp

theorem capitalizeWords_false_lower {w : JSString} (t : JSString) (hne : w ≠ [])
    (h : ∀ c ∈ w, 97 ≤ c ∧ c ≤ 122) :
    capitalizeWords false (w ++ t) = capitalize w ++ capitalizeWords true t := by
  cases w with
  | nil => exact absurd rfl hne
  | cons c cs =>
    have hc := h c (List.mem_cons_self _ _)
    rw [List.cons_append, capitalizeWords, isWordChar_lower hc,
      capitalizeWords_true_lower cs t (fun d hd => h d (List.mem_cons_of_mem _ hd))]
    simp [canon, hc.1, hc.2, capitalize]

theorem isLowerWord_iff {w : JSString} :
    isLowerWord w = true ↔ w ≠ [] ∧ ∀ c ∈ w, 97 ≤ c ∧ c ≤ 122 := by
  cases w <;> simp [isLowerWord]

theorem capitalizeWords_joinWords :
    ∀ (more : List (Nat × JSString)) (w : JSString), isLowerWord w = true →
      (more.all (fun p => isDash p.1 && isLowerWord p.2) = true) →
      capitalizeWords false (replaceDashes (joinWords w more)) = titleOfWords w more := by
  intro more
  induction more with
  | nil =>
    intro w hw _
    obtain ⟨hne, hl⟩ := isLowerWord_iff.1 hw
    simp only [joinWords, titleOfWords]
    rw [replaceDashes_lower hl]
    simpa [capitalizeWords] using capitalizeWords_false_lower [] hne hl
  | cons p more ih =>
    intro w hw hall
    obtain ⟨sep, w'⟩ := p
    obtain ⟨hne, hl⟩ := isLowerWord_iff.1 hw
    simp only [List.all_cons, Bool.and_eq_true] at hall
    have hsep : sep = 45 ∨ sep = 95 := by simpa [isDash] using hall.1.1
    simp only [joinWords, titleOfWords]
    have e : replaceDashes (w ++ sep :: joinWords w' more) =
        w ++ cSp :: replaceDashes (joinWords w' more) := by
      have := replaceDashes_lower hl
      simp only [replaceDashes] at this ⊢
      simp [this, hsep]
    rw [e, capitalizeWords_false_lower _ hne hl]
    simp only [capitalizeWords, cSp]
    rw [← ih w' hall.1.2 hall.2]
    simp [isWordChar]

theorem capitalize_letters {w : JSString} (h : ∀ c ∈ w, 97 ≤ c ∧ c ≤ 122) :
    ∀ c ∈ capitalize w, 65 ≤ c ∧ c ≤ 122 := by
  cases w with
  | nil => simp [capitalize]
  | cons d ds =>
    intro c hc
    simp only [capitalize, List.mem_cons] at hc
    have hd := h d (List.mem_cons_self _ _)
    rcases hc with e | e
    · omega
    · have := h c (List.mem_cons_of_mem _ e)
      omega

theorem titleOfWords_ne_nil (w : JSString) (more : List (Nat × JSString)) (hne : w ≠ []) :
    titleOfWords w more ≠ [] := by
  cases w with
  | nil => exact absurd rfl hne
  | cons c cs => cases more with
    | nil => simp [titleOfWords, capitalize]
    | cons p more => obtain ⟨s, w'⟩ := p; simp [titleOfWords, capitalize]

theorem not_ws_of_letter {c : Nat} (h : 65 ≤ c ∧ c ≤ 122) : isWhiteSpace c = false := by
  simp only [isWhiteSpace, Bool.or_eq_false_iff, Bool.and_eq_false_iff, beq_eq_false_iff_ne,
    decide_eq_false_iff_not]
  omega

theorem titleOfWords_head (w : JSString) (more : List (Nat × JSString))
    (hw : isLowerWord w = true) :
    ∀ c ∈ (titleOfWords w more).head?, isWhiteSpace c = false := by
  obtain ⟨hne, hl⟩ := isLowerWord_iff.1 hw
  cases w with
  | nil => exact absurd rfl hne
  | cons d ds =>
    have hd := hl d (List.mem_cons_self _ _)
    intro c hc
    have : c = d - 32 := by
      cases more with
      | nil => simpa [titleOfWords, capitalize, eq_comm] using hc
      | cons p more => obtain ⟨s, w'⟩ := p; simpa [titleOfWords, capitalize, eq_comm] using hc
    exact not_ws_of_letter (by omega)

theorem titleOfWords_last :
    ∀ (more : List (Nat × JSString)) (w : JSString), isLowerWord w = true →
      (more.all (fun p => isDash p.1 && isLowerWord p.2) = true) →
      ∀ c ∈ (titleOfWords w more).getLast?, isWhiteSpace c = false := by
  intro more
  induction more with
  | nil =>
    intro w hw _ c hc
    obtain ⟨_, hl⟩ := isLowerWord_iff.1 hw
    exact not_ws_of_letter (capitalize_letters hl c (List.mem_of_getLast?_eq_some hc))
  | cons p more ih =>
    intro w hw hall c hc
    obtain ⟨sep, w'⟩ := p
    simp only [List.all_cons, Bool.and_eq_true] at hall
    have hne' := (isLowerWord_iff.1 hall.1.2).1
    simp only [titleOfWords] at hc
    rw [List.getLast?_append_of_ne_nil _ (by simp)] at hc
    cases ht : titleOfWords w' more with
    | nil => exact absurd ht (titleOfWords_ne_nil w' more hne')
    | cons x xs =>
      rw [ht, List.getLast?_cons_cons, ← ht] at hc
      exact ih w' hall.1.2 hall.2 c hc

theorem meaningful_joinWords (w : JSString) (more : List (Nat × JSString))
    (hw : isLowerWord w = true) (hlen : 5 < (joinWords w more).length) :
    meaningful (joinWords w more) = true := by
  obtain ⟨hne, hl⟩ := isLowerWord_iff.1 hw
  cases w with
  | nil => exact absurd rfl hne
  | cons d ds =>
    have hd := hl d (List.mem_cons_self _ _)
    have hj : ∃ t, joinWords (d :: ds) more = d :: t := by
      cases more with
      | nil => exact ⟨ds, rfl⟩
      | cons p more => obtain ⟨s, w'⟩ := p; exact ⟨_, rfl⟩
    obtain ⟨t, ht⟩ := hj
    rw [ht] at hlen ⊢
    have hdig : isDigit d = false := by
      simp only [isDigit, Bool.and_eq_false_iff, decide_eq_false_iff_not]
      omega
    simp only [List.length_cons] at hlen
    simp [meaningful, isNumeric, hdig]
    omega

/-! ## The ends of a trimmed string -/

theorem trim_head (s : JSString) : ∀ c ∈ (trim s).head?, isWhiteSpace c = false := by
  intro c hc
  have hp : trim s <+: s.dropWhile isWhiteSpace := List.rdropWhile_prefix _ _
  obtain ⟨t, ht⟩ := hp
  apply head?_dropWhile_false isWhiteSpace s c
  rw [← ht]
  cases hts : trim s with
  | nil => rw [hts] at hc; simp at hc
  | cons x xs => rw [hts] at hc; simpa using hc

theorem trim_last (s : JSString) : ∀ c ∈ (trim s).getLast?, isWhiteSpace c = false := by
  intro c hc
  have hne : trim s ≠ [] := by
    intro e
    rw [e] at hc
    simp at hc
  have hl := List.rdropWhile_last_not (p := isWhiteSpace) (l := s.dropWhile isWhiteSpace) hne
  rw [List.getLast?_eq_getLast _ hne] at hc
  simp only [Option.mem_def, Option.some.injEq] at hc
  rw [← hc]
  simpa [trim] using hl

/-! ## The longest title -/

theorem head?_sortByLengthDesc (l : List JSString) :
    (sortByLengthDesc l).head? = firstLongest l := by
  induction l with
  | nil => rfl
  | cons a l ih =>
    unfold sortByLengthDesc at ih ⊢
    rw [List.insertionSort, firstLongest, ← ih]
    cases hs : List.insertionSort (fun a b : JSString => b.length ≤ a.length) l with
    | nil => rfl
    | cons b rest =>
      simp only [List.orderedInsert, List.head?_cons]
      split_ifs <;> rfl

theorem firstLongest_eq_none {l : List JSString} : firstLongest l = none ↔ l = [] := by
  cases l with
  | nil => simp [firstLongest]
  | cons a l =>
    simp only [firstLongest]
    cases firstLongest l with
    | none => simp
    | some b =>
      simp only
      split_ifs <;> simp

/-- The result of `firstLongest` is an element of the list that is at least as long
as every element and longer than every element in front of it. -/
theorem firstLongest_eq_some {l : List JSString} {t : JSString}
    (h : firstLongest l = some t) :
    ∃ pre post, l = pre ++ t :: post ∧ (∀ x ∈ pre, x.length < t.length) ∧
      ∀ x ∈ post, x.length ≤ t.length := by
  induction l generalizing t with
  | nil => simp [firstLongest] at h
  | cons a l ih =>
    simp only [firstLongest] at h
    cases hl : firstLongest l with
    | none =>
      rw [hl] at h
      simp only [Option.some.injEq] at h
      subst h
      exact ⟨[], l, rfl, by simp, by simp [firstLongest_eq_none.1 hl]⟩
    | some b =>
      rw [hl] at h
      obtain ⟨pre, post, hpp, h1, h2⟩ := ih hl
      by_cases hba : b.length ≤ a.length
      · simp only [hba, ↓reduceIte, Option.some.injEq] at h
        subst h
        refine ⟨[], l, rfl, by simp, ?_⟩
        intro x hx
        rw [hpp] at hx
        rcases List.mem_append.1 hx with hx | hx
        · exact Nat.le_trans (Nat.le_of_lt (h1 x hx)) hba
        · rcases List.mem_cons.1 hx with hx | hx
          · rw [hx]; exact hba
          · exact Nat.le_trans (h2 x hx) hba
      · simp only [hba, ↓reduceIte, Option.some.injEq] at h
        subst h
        refine ⟨a :: pre, post, by simp [hpp], ?_, h2⟩
        intro x hx
        rcases List.mem_cons.1 hx with hx | hx
        · rw [hx]; omega
        · exact h1 x hx

theorem firstLongest_mem {l : List JSString} {t : JSString} (h : firstLongest l = some t) :
    t ∈ l ∧ ∀ x ∈ l, x.length ≤ t.length := by
  obtain ⟨pre, post, hpp, h1, h2⟩ := firstLongest_eq_some h
  subst hpp
  refine ⟨by simp, ?_⟩
  intro x hx
  rcases List.mem_append.1 hx with hx | hx
  · exact Nat.le_of_lt (h1 x hx)
  · rcases List.mem_cons.1 hx with hx | hx
    · rw [hx]
    · exact h2 x hx

theorem nearbyLoop_eq_some (area : JSString) :
    ∀ (patterns : List (JSString → Option (JSString × Nat))) (t : JSString),
      nearbyLoop area patterns = some t →
      ∃ pre cls rest, patterns = pre ++ cls :: rest ∧
        (∀ p ∈ pre, nearbyTitles p area = []) ∧
        firstLongest (nearbyTitles cls area) = some t := by
  intro patterns
  induction patterns with
  | nil => intro t h; simp [nearbyLoop] at h
  | cons p rest ih =>
    intro t h
    simp only [nearbyLoop] at h
    have hh := head?_sortByLengthDesc (nearbyTitles p area)
    cases hs : sortByLengthDesc (nearbyTitles p area) with
    | nil =>
      rw [hs] at h hh
      obtain ⟨pre, cls, rest', hpp, h1, h2⟩ := ih t h
      refine ⟨p :: pre, cls, rest', by simp [hpp], ?_, h2⟩
      intro q hq
      rcases List.mem_cons.1 hq with e | e
      · rw [e]
        exact firstLongest_eq_none.1 hh.symm
      · exact h1 q e
    | cons title more =>
      rw [hs] at h hh
      simp only [Option.some.injEq] at h
      subst h
      exact ⟨[], p, rest, rfl, by simp, hh.symm⟩

theorem nearbyLoop_eq_none (area : JSString) :
    ∀ (patterns : List (JSString → Option (JSString × Nat))),
      nearbyLoop area patterns = none ↔ ∀ p ∈ patterns, nearbyTitles p area = [] := by
  intro patterns
  induction patterns with
  | nil => simp [nearbyLoop]
  | cons p rest ih =>
    simp only [nearbyLoop, List.mem_cons, forall_eq_or_imp]
    have hh := head?_sortByLengthDesc (nearbyTitles p area)
    cases hs : sortByLengthDesc (nearbyTitles p area) with
    | nil =>
      rw [hs] at hh
      simp only [ih, firstLongest_eq_none.1 hh.symm, true_and]
    | cons title more =>
      rw [hs] at hh
      simp only [false_iff, not_and, reduceCtorEq]
      intro e
      rw [e] at hh
      simp [firstLongest] at hh

theorem wholeMatchCI_genericWords {text : JSString} (h : 15 ≤ text.length) :
    wholeMatchCI genericWords text = false := by
  simp only [wholeMatchCI, List.any_eq_false, beq_iff_eq]
  intro w hw e
  have hlen : text.length = w.length := by
    have := congrArg List.length e
    simpa using this
  have hw13 : ∀ w ∈ genericWords, w.length ≤ 13 := by decide
  have := hw13 w hw
  omega

/-! ## The index of a substring -/

theorem indexOfAux_some {pat : JSString} :
    ∀ (s : JSString) (i j : Nat), indexOfAux pat s i = some j →
      ∃ k, j = i + k ∧ k ≤ s.length ∧ pat <+: s.drop k := by
  intro s
  induction s with
  | nil =>
    intro i j h
    simp only [indexOfAux] at h
    split_ifs at h with hp
    simp only [Option.some.injEq] at h
    exact ⟨0, by omega, by simp, by simp [hp]⟩
  | cons c cs ih =>
    intro i j h
    simp only [indexOfAux] at h
    split_ifs at h with hp
    · simp only [Option.some.injEq] at h
      exact ⟨0, by omega, by simp, by simpa using hp⟩
    · obtain ⟨k, hk, hle, hpre⟩ := ih _ _ h
      exact ⟨k + 1, by omega, by simp [hle], by simpa using hpre⟩

theorem indexOf_some {html pat : JSString} {pos j : Nat} (hpat : pat ≠ [])
    (h : indexOf html pat pos = some j) :
    pos ≤ j ∧ pat <+: html.drop j ∧ j + pat.length ≤ html.length := by
  unfold indexOf at h
  obtain ⟨k, hk, hle, hpre⟩ := indexOfAux_some _ _ _ h
  rw [List.drop_drop] at hpre
  have hlen := hpre.length_le
  simp only [List.length_drop] at hlen hle
  have hpos : 0 < pat.length := List.length_pos.2 hpat
  have hj : j = pos + k := by
    rcases Nat.le_total pos html.length with hp | hp
    · rw [Nat.min_eq_left hp] at hk
      exact hk
    · omega
  subst hj
  exact ⟨by omega, hpre, by omega⟩

theorem findLinkText_eq (html : JSString) (position : Nat) :
    findLinkText html position =
      match indexOf html (str ">") position with
      | none => none
      | some s =>
        match indexOf html (str "</a>") s with
        | none => none
        | some e =>
          if 1000 ≤ (substring html (s + 1) e).length then none
          else some (cleanTitle (substring html (s + 1) e)) := by
  unfold findLinkText
  cases hs : indexOf html (str ">") position with
  | none => rfl
  | some s =>
    simp only
    cases he : indexOf html (str "</a>") s with
    | none => rfl
    | some e =>
      simp only
      obtain ⟨_, hs2, hs3⟩ := indexOf_some (by decide) hs
      obtain ⟨he1, he2, he3⟩ := indexOf_some (by decide) he
      have h4 : (str "</a>").length = 4 := by decide
      have h1 : (str ">").length = 1 := by decide
      rw [h4] at he3
      rw [h1] at hs3
      have hne : s ≠ e := by
        intro hse
        subst hse
        obtain ⟨r1, hr1⟩ := hs2
        obtain ⟨r2, hr2⟩ := he2
        rw [← hr1] at hr2
        have := congrArg List.head? hr2
        simp [str] at this
      have hlen : (substring html (s + 1) e).length = e - s - 1 := by
        simp only [substring, List.length_take, List.length_drop]
        omega
      rw [hlen]
      have hiff : (1000 < e - s) ↔ (1000 ≤ e - s - 1) := by omega
      by_cases hc : 1000 < e - s
      · rw [if_pos hc, if_pos (hiff.1 hc)]
      · rw [if_neg hc, if_neg (fun h => hc (hiff.2 h))]

/-! ## The parts of a discovered URL -/

theorem split_ne_nil (sep : Nat) (s : JSString) : split sep s ≠ [] := by
  cases s with
  | nil => simp [split]
  | cons c cs =>
    simp only [split]
    split_ifs
    · simp
    · split <;> simp

theorem split_length (sep : Nat) (s : JSString) :
    (split sep s).length = s.count sep + 1 := by
  induction s with
  | nil => simp [split]
  | cons c cs ih =>
    simp only [split]
    by_cases hc : c = sep
    · simp [hc, ih]
    · rw [if_neg hc, List.count_cons_of_ne (fun e => hc e.symm), ← ih]
      cases hs : split sep cs with
      | nil => exact absurd hs (split_ne_nil sep cs)
      | cons p ps => rfl

theorem headD_split (sep : Nat) (s : JSString) :
    (split sep s).headD [] = s.takeWhile (fun c => c != sep) := by
  induction s with
  | nil => simp [split]
  | cons c cs ih =>
    simp only [split]
    by_cases hc : c = sep
    · simp [hc]
    · rw [if_neg hc]
      cases hs : split sep cs with
      | nil => exact absurd hs (split_ne_nil sep cs)
      | cons p ps =>
        rw [hs] at ih
        simp only [List.headD_cons] at ih
        simp [List.takeWhile_cons, hc, ← ih]

theorem count_rdropWhile (q : Nat → Bool) (a : Nat) (hq : q a = false) (l : JSString) :
    (l.rdropWhile q).count a = l.count a := by
  induction l using List.reverseRecOn with
  | nil => simp
  | append_singleton l x ih =>
    rw [List.rdropWhile_concat]
    split_ifs with hx
    · have hne : x ≠ a := by
        intro e
        rw [e, hq] at hx
        exact absurd hx (by simp)
      rw [ih, List.count_append, List.count_cons_of_ne (Ne.symm hne)]
      simp
    · rfl

theorem canon_eq_of_not_upper {c a : Nat} (ha : ¬ (65 ≤ a ∧ a ≤ 90)) (h : canon c = a) :
    c = a := by
  unfold canon at h
  split_ifs at h with hc
  · omega
  · exact h

theorem canon_of_not_lower {a : Nat} (ha : ¬ (97 ≤ a ∧ a ≤ 122)) : canon a = a := by
  unfold canon
  rw [if_neg ha]

theorem count_map_canon (a : Nat) (h1 : ¬ (65 ≤ a ∧ a ≤ 90)) (h2 : ¬ (97 ≤ a ∧ a ≤ 122))
    (l : JSString) : (l.map canon).count a = l.count a := by
  induction l with
  | nil => rfl
  | cons c cs ih =>
    rw [List.map_cons]
    by_cases hc : c = a
    · subst hc
      rw [canon_of_not_lower h2]
      simp [ih]
    · have hc' : canon c ≠ a := fun e => hc (canon_eq_of_not_upper h1 e)
      rw [List.count_cons_of_ne (Ne.symm hc'), List.count_cons_of_ne (Ne.symm hc), ih]

theorem delimMatch_capture {pre opn close t cap : JSString} {stop n : Nat}
    (h : delimMatch pre opn stop close t = some (cap, n)) :
    ∃ b r, cap = b ++ r ∧ b.map canon = opn.map canon := by
  unfold delimMatch at h
  simp only at h
  split_ifs at h with h1 h2
  simp only [Option.some.injEq, Prod.mk.injEq] at h
  simp only [isPrefixCI, List.isPrefixOf_iff_prefix] at h1
  obtain ⟨r, hr⟩ := h1
  obtain ⟨l1, l2, ht, hl1, _⟩ := List.map_eq_append_iff.1 hr.symm
  rw [List.map_append] at hl1
  obtain ⟨a, b, hab, ha, hb⟩ := List.map_eq_append_iff.1 hl1
  have hla : a.length = pre.length := by
    have := congrArg List.length ha
    simpa using this
  have hlb : b.length = opn.length := by
    have := congrArg List.length hb
    simpa using this
  refine ⟨b,
    l2.take ((t.drop (pre.length + opn.length)).takeWhile (fun c => c != stop)).length,
    ?_, hb⟩
  rw [← h.1, ht, hab, ← hla, ← hlb, List.append_assoc, List.drop_left, List.take_append]

theorem count_cleanUrl {url u : JSString} {a : Nat} (h : cleanUrl url = .ok u)
    (h1 : a ≠ cBackslash) (h2 : a ≠ cQuote) {b r : JSString} (hb : url = b ++ r)
    (hq : cQuestion ∉ b) : b.count a ≤ u.count a := by
  unfold cleanUrl at h
  simp only at h
  have hs : ∀ l : JSString, (stripTrailing cQuote (stripTrailing cBackslash l)).count a =
      l.count a := by
    intro l
    unfold stripTrailing
    rw [count_rdropWhile _ a (by simpa using h2), count_rdropWhile _ a (by simpa using h1)]
  split_ifs at h with hi hh hh
  · simp only [Except.ok.injEq] at h
    rw [← h, hs, headD_split, hb,
      List.takeWhile_append_of_pos (fun c hc => by
        have : c ≠ cQuestion := fun e => hq (e ▸ hc)
        simpa using this),
      List.count_append]
    exact Nat.le_add_right _ _
  · simp only [Except.ok.injEq] at h
    rw [← h, hs, hb, List.count_append]
    exact Nat.le_add_right _ _

/-- Every URL found by the discovery has at least 4 parts when it is cleaned and
split at `/`: `https:`, the empty part, the host, and at least one more. -/
theorem discovered_url_parts {html : JSString} {m : Candidate} (hm : m ∈ allUrls html)
    {u : JSString} (hu : cleanUrl m.url = .ok u) : 4 ≤ (split cSlash u).length := by
  simp only [allUrls, List.mem_map] at hm
  obtain ⟨r, hr, hrm⟩ := hm
  obtain ⟨t, n, _, hmt⟩ := execAll_capture html 0 0 r hr
  obtain ⟨b, r', hcap, hb⟩ := delimMatch_capture hmt
  have hurl : m.url = b ++ r' := by rw [← hrm]; exact hcap
  have h3 : b.count cSlash = 3 := by
    rw [← count_map_canon cSlash (by decide) (by decide), hb]
    decide
  have hq : cQuestion ∉ b := by
    have h0 : b.count cQuestion = 0 := by
      rw [← count_map_canon cQuestion (by decide) (by decide), hb]
      decide
    exact List.count_eq_zero.1 h0
  have := count_cleanUrl (a := cSlash) hu (by decide) (by decide) hurl hq
  rw [split_length]
  omega

/-- The text between the `>` found by `findLinkText` and the `</a>` behind it. -/
theorem linkSpan {html : JSString} {position s e : Nat}
    (hs : indexOf html (str ">") position = some s)
    (he : indexOf html (str "</a>") s = some e) :
    s < e ∧ (substring html (s + 1) e).length = e - s - 1 := by
  obtain ⟨_, hs2, hs3⟩ := indexOf_some (by decide) hs
  obtain ⟨he1, he2, he3⟩ := indexOf_some (by decide) he
  have h4 : (str "</a>").length = 4 := by decide
  rw [h4] at he3
  have hne : s ≠ e := by
    intro hse
    subst hse
    obtain ⟨r1, hr1⟩ := hs2
    obtain ⟨r2, hr2⟩ := he2
    rw [← hr1] at hr2
    have := congrArg List.head? hr2
    simp [str] at this
  refine ⟨by omega, ?_⟩
  simp only [substring, List.length_take, List.length_drop]
  omega

/-! ## The title made from a URL of the host -/

theorem split_host (rest : JSString) :
    split cSlash (str "https://time.com/" ++ rest) =
      [str "https:", [], str "time.com"] ++ split cSlash rest := by
  rfl

theorem lastMeaningful_some {parts : List JSString} {seg : JSString}
    (h : lastMeaningful parts = some seg) : seg ∈ parts ∧ meaningful seg = true := by
  have := List.mem_of_getLast?_eq_some h
  rw [List.mem_filter] at this
  exact this

theorem lastMeaningful_host (rest : List JSString) :
    lastMeaningful ([str "https:", [], str "time.com"] ++ rest) =
      match lastMeaningful rest with
      | none => some (str "time.com")
      | some seg => some seg := by
  have h1 : meaningful (str "https:") = true := by decide
  have h2 : meaningful [] = false := by decide
  have h3 : meaningful (str "time.com") = true := by decide
  have e : ([str "https:", [], str "time.com"] ++ rest).filter meaningful =
      [str "https:", str "time.com"] ++ rest.filter meaningful := by
    simp [List.filter_cons, h1, h2, h3]
  unfold lastMeaningful
  rw [e, List.getLast?_append]
  cases (rest.filter meaningful).getLast? with
  | none => rfl
  | some seg => rfl

theorem meaningful_eq_false_iff {p : JSString} :
    meaningful p = false ↔ (isNumeric p = true ∨ p.length ≤ 3) := by
  cases p with
  | nil => simp [meaningful]
  | cons c cs =>
    simp only [meaningful, List.isEmpty_cons, Bool.not_false, Bool.true_and,
      Bool.and_eq_false_iff, decide_eq_false_iff_not, Bool.not_eq_false', not_lt]
    exact Or.comm

/-! ## Occurrences of a pattern behind a replacement -/

theorem includes_eq_false_iff_part {s pat : JSString} :
    includes s pat = false ↔ ¬ pat <:+: s := by
  rw [includes_eq_false_iff, List.infix_iff_prefix_suffix]
  constructor
  · rintro h ⟨t, h1, h2⟩
    exact h t h2 h1
  · intro h t h2 h1
    exact h ⟨t, h1, h2⟩

theorem includes_false_of_part {s t pat : JSString} (ht : t <:+: s)
    (h : includes s pat = false) : includes t pat = false := by
  rw [includes_eq_false_iff_part] at h ⊢
  exact fun hp => h (hp.trans ht)

theorem includes_false_of_longer {s pat pat' : JSString} (hp : pat <:+: pat')
    (h : includes s pat = false) : includes s pat' = false := by
  rw [includes_eq_false_iff_part] at h ⊢
  exact fun hp' => h (hp.trans hp')

theorem isPrefixOf_eq_false {pat t : JSString} :
    pat.isPrefixOf t = false ↔ ¬ pat <+: t := by
  rw [← Bool.not_eq_true, List.isPrefixOf_iff_prefix]

theorem includes_cons (x : Nat) (xs pat : JSString) :
    includes (x :: xs) pat = (pat.isPrefixOf (x :: xs) || includes xs pat) := by
  simp [includes, List.tails]

theorem includes_nil_of_ne {pat : JSString} (h : pat ≠ []) : includes [] pat = false := by
  cases pat with
  | nil => exact absurd rfl h
  | cons p ps => simp [includes, List.tails, List.isPrefixOf]

/-- A string without the replacement character that begins the result of a
replacement by that character begins the input as well. -/
theorem begins_of_replaceAll {m : JSString → Option Nat} {c : Nat} :
    ∀ (q xs : JSString), c ∉ q → q <+: replaceAll m [c] 0 xs → q <+: xs := by
  intro q
  induction q with
  | nil => intro xs _ _; exact List.nil_prefix
  | cons q0 q ih =>
    intro xs hc h
    cases xs with
    | nil => simp [replaceAll] at h
    | cons y ys =>
      simp only [replaceAll] at h
      cases hm : m (y :: ys) with
      | some n =>
        rw [hm] at h
        simp only [List.singleton_append, List.cons_prefix_cons] at h
        exact absurd (h.1 ▸ List.mem_cons_self _ _) hc
      | none =>
        rw [hm] at h
        simp only [List.cons_prefix_cons] at h
        rw [List.cons_prefix_cons]
        exact ⟨h.1, ih ys (fun hx => hc (List.mem_cons_of_mem _ hx)) h.2⟩

/-- A pattern without the replacement character that does not occur in the input
does not occur in the result of the replacement. -/
theorem absent_replaceAll {m : JSString → Option Nat} {c : Nat} {pat : JSString}
    (hc : c ∉ pat) (hne : pat ≠ []) :
    ∀ (s : JSString) (k : Nat), includes s pat = false →
      includes (replaceAll m [c] k s) pat = false := by
  obtain ⟨p0, q, rfl⟩ := List.exists_cons_of_ne_nil hne
  intro s
  induction s with
  | nil => intro k _; rw [replaceAll_nil]; exact includes_nil_of_ne hne
  | cons x xs ih =>
    intro k h
    rw [includes_cons, Bool.or_eq_false_iff] at h
    cases k with
    | succ k => simpa [replaceAll] using ih k h.2
    | zero =>
      simp only [replaceAll]
      cases hm : m (x :: xs) with
      | some n =>
        simp only [List.singleton_append]
        rw [includes_cons, Bool.or_eq_false_iff]
        refine ⟨?_, ih _ h.2⟩
        have : ¬ (p0 :: q) <+: c :: replaceAll m [c] (n - 1) xs := by
          rw [List.cons_prefix_cons]
          rintro ⟨e, _⟩
          exact hc (e ▸ List.mem_cons_self _ _)
        exact isPrefixOf_eq_false.2 this
      | none =>
        simp only
        rw [includes_cons, Bool.or_eq_false_iff]
        refine ⟨?_, ih _ h.2⟩
        have h1 : ¬ (p0 :: q) <+: x :: xs := isPrefixOf_eq_false.1 h.1
        have : ¬ (p0 :: q) <+: x :: replaceAll m [c] 0 xs := by
          rw [List.cons_prefix_cons]
          rintro ⟨e, hq⟩
          apply h1
          rw [List.cons_prefix_cons]
          exact ⟨e, begins_of_replaceAll q xs (fun hx => hc (List.mem_cons_of_mem _ hx)) hq⟩
        exact isPrefixOf_eq_false.2 this

/-- The pattern does not occur in the result of its replacement by a character
that it does not contain. -/
theorem absent_replaceLit_self {c : Nat} {pat : JSString} (hc : c ∉ pat) (hne : pat ≠ []) :
    ∀ (s : JSString) (k : Nat), includes (replaceAll (litMatch pat) [c] k s) pat = false := by
  obtain ⟨p0, q, rfl⟩ := List.exists_cons_of_ne_nil hne
  intro s
  induction s with
  | nil => intro k; rw [replaceAll_nil]; exact includes_nil_of_ne hne
  | cons x xs ih =>
    intro k
    cases k with
    | succ k => simpa [replaceAll] using ih k
    | zero =>
      simp only [replaceAll]
      cases hm : litMatch (p0 :: q) (x :: xs) with
      | some n =>
        simp only [List.singleton_append]
        rw [includes_cons, Bool.or_eq_false_iff]
        refine ⟨?_, ih _⟩
        have : ¬ (p0 :: q) <+: c :: replaceAll (litMatch (p0 :: q)) [c] (n - 1) xs := by
          rw [List.cons_prefix_cons]
          rintro ⟨e, _⟩
          exact hc (e ▸ List.mem_cons_self _ _)
        exact isPrefixOf_eq_false.2 this
      | none =>
        simp only
        rw [includes_cons, Bool.or_eq_false_iff]
        refine ⟨?_, ih _⟩
        have h1 : ¬ (p0 :: q) <+: x :: xs := by
          intro hp
          simp [litMatch, hp] at hm
        have : ¬ (p0 :: q) <+: x :: replaceAll (litMatch (p0 :: q)) [c] 0 xs := by
          rw [List.cons_prefix_cons]
          rintro ⟨e, hq⟩
          apply h1
          rw [List.cons_prefix_cons]
          exact ⟨e, begins_of_replaceAll q xs (fun hx => hc (List.mem_cons_of_mem _ hx)) hq⟩
        exact isPrefixOf_eq_false.2 this

/-! ## Titles of documents without a doubly encoded ampersand -/

theorem absent_amp_step : ∀ (s : JSString) (k : Nat),
    includes s (str "&amp;amp;") = false →
    includes (replaceAll (litMatch (str "&amp;")) [cAmp] k s) (str "&amp;") = false := by
  have hA : str "&amp;" = cAmp :: str "amp;" := by decide
  have hAA : str "&amp;amp;" = cAmp :: (str "amp;" ++ str "amp;") := by decide
  have hQ : cAmp ∉ str "amp;" := by decide
  intro s
  induction s with
  | nil => intro k _; rw [replaceAll_nil]; exact includes_nil_of_ne (by decide)
  | cons x xs ih =>
    intro k h
    rw [includes_cons, Bool.or_eq_false_iff] at h
    cases k with
    | succ k => simpa [replaceAll] using ih k h.2
    | zero =>
      have hpre := isPrefixOf_eq_false.1 h.1
      simp only [replaceAll]
      cases hm : litMatch (str "&amp;") (x :: xs) with
      | some n =>
        simp only [List.singleton_append]
        rw [includes_cons, Bool.or_eq_false_iff]
        refine ⟨isPrefixOf_eq_false.2 ?_, ih _ h.2⟩
        intro hp
        unfold litMatch at hm
        split_ifs at hm with hpx
        simp only [Option.some.injEq] at hm
        subst hm
        have hpx' : str "&amp;" <+: x :: xs := List.isPrefixOf_iff_prefix.1 hpx
        rw [hA, List.cons_prefix_cons] at hpx'
        rw [hA, List.cons_prefix_cons, replaceAll_skip] at hp
        obtain ⟨rest, hrest⟩ := hpx'.2
        have hq := begins_of_replaceAll _ _ hQ hp.2
        have hd : xs.drop ((cAmp :: str "amp;").length - 1) = rest := by
          rw [← hrest]
          exact List.drop_left' (by decide)
        rw [hd] at hq
        obtain ⟨r2, hr2⟩ := hq
        apply hpre
        rw [hAA, List.cons_prefix_cons]
        refine ⟨hpx'.1, r2, ?_⟩
        rw [List.append_assoc, hr2, hrest]
      | none =>
        simp only
        rw [includes_cons, Bool.or_eq_false_iff]
        refine ⟨isPrefixOf_eq_false.2 ?_, ih _ h.2⟩
        intro hp
        unfold litMatch at hm
        split_ifs at hm with hpx
        apply hpx
        rw [List.isPrefixOf_iff_prefix]
        rw [hA, List.cons_prefix_cons] at hp ⊢
        exact ⟨hp.1, begins_of_replaceAll _ _ hQ hp.2⟩

theorem decodeEntities_eq (s : JSString) :
    decodeEntities s =
      restEntities.foldl (fun acc p => replaceLit p.1 [p.2] acc)
        (replaceLit (str "&amp;") [cAmp] s) := rfl

theorem absent_foldl : ∀ (T : List (JSString × Nat)) (X : List JSString) (s : JSString),
    (∀ p ∈ T, p.1 ≠ []) → (∀ e ∈ X, e ≠ []) →
    (∀ p ∈ T, ∀ e ∈ X ++ T.map Prod.fst, p.2 ∉ e) →
    (∀ e ∈ X, includes s e = false) →
    ∀ e ∈ X ++ T.map Prod.fst,
      includes (T.foldl (fun acc p => replaceLit p.1 [p.2] acc) s) e = false := by
  intro T
  induction T with
  | nil => intro X s _ _ _ h e he; simpa using h e (by simpa using he)
  | cons p T ih =>
    intro X s h1 h2 h3 h4 e he
    rw [List.foldl_cons]
    have hset : ∀ e, e ∈ (X ++ [p.1]) ++ T.map Prod.fst ↔ e ∈ X ++ (p :: T).map Prod.fst := by
      intro e; simp
    refine ih (X ++ [p.1]) _ (fun q hq => h1 q (List.mem_cons_of_mem _ hq)) ?_ ?_ ?_ e
      ((hset e).2 he)
    · intro e he
      rcases List.mem_append.1 he with he | he
      · exact h2 e he
      · rw [List.mem_singleton.1 he]; exact h1 p (List.mem_cons_self _ _)
    · intro q hq e he
      exact h3 q (List.mem_cons_of_mem _ hq) e ((hset e).1 he)
    · intro e he
      have hpe : p.2 ∉ e := h3 p (List.mem_cons_self _ _) e ((hset e).1
        (List.mem_append_left _ he))
      rcases List.mem_append.1 he with he | he
      · exact absent_replaceAll hpe (h2 e he) s 0 (h4 e he)
      · rw [List.mem_singleton.1 he] at hpe ⊢
        exact absent_replaceLit_self hpe (h1 p (List.mem_cons_self _ _)) s 0

theorem noEntity_decodeEntities {s : JSString} (h : includes s (str "&amp;amp;") = false) :
    NoEntity (decodeEntities s) := by
  intro e he
  rw [decodeEntities_eq]
  refine absent_foldl restEntities [str "&amp;"] _ (by decide) (by decide) (by decide) ?_ e he
  intro e he
  rw [List.mem_singleton.1 he]
  exact absent_amp_step s 0 h

theorem noEntity_cleanTitle {y : JSString} (h : includes y (str "&amp;amp;") = false) :
    NoEntity (cleanTitle y) := by
  intro e he
  have hne : e ≠ [] := by
    revert e; decide
  have hsp : cSp ∉ e := by
    revert e; decide
  unfold cleanTitle
  split_ifs
  · exact includes_nil_of_ne hne
  · have h0 : includes (stripTags y) (str "&amp;amp;") = false :=
      absent_replaceAll (by decide) (by decide) y 0 h
    have h1 := noEntity_decodeEntities h0 e he
    exact includes_false_of_part (trim_part _) (absent_replaceAll hsp hne _ 0 h1)

theorem noTag_replaceAll_char {m : JSString → Option Nat} {c : Nat} (hlt : c ≠ cLt)
    (hgt : c ≠ cGt) :
    ∀ (s : JSString) (k : Nat), NoTag s → NoTag (replaceAll m [c] k s) := by
  intro s
  induction s with
  | nil => intro k _; rw [replaceAll_nil]; exact noTag_nil
  | cons x xs ih =>
    intro k h
    obtain ⟨h1, h2⟩ := noTag_cons.1 h
    cases k with
    | succ k => simpa [replaceAll] using ih k h2
    | zero =>
      simp only [replaceAll]
      split
      · simp only [List.singleton_append]
        exact noTag_cons.2 ⟨fun hc => absurd hc hlt, ih _ h2⟩
      · refine noTag_cons.2 ⟨fun hc hmem => ?_, ih _ h2⟩
        rcases mem_replaceAll _ _ hmem with h | h
        · exact h1 hc h
        · exact hgt (List.mem_singleton.1 h).symm

theorem noTag_foldl : ∀ (T : List (JSString × Nat)) (s : JSString),
    (∀ p ∈ T, p.2 ≠ cLt ∧ p.2 ≠ cGt) → NoTag s →
    NoTag (T.foldl (fun acc p => replaceLit p.1 [p.2] acc) s) := by
  intro T
  induction T with
  | nil => intro s _ h; exact h
  | cons p T ih =>
    intro s hT h
    rw [List.foldl_cons]
    refine ih _ (fun q hq => hT q (List.mem_cons_of_mem _ hq)) ?_
    have hp := hT p (List.mem_cons_self _ _)
    exact noTag_replaceAll_char hp.1 hp.2 s 0 h

theorem hasTag_cleanTitle {x : JSString} (ha : includes x (str "&amp;") = false)
    (hl : includes x (str "&lt;") = false) (hg : includes x (str "&gt;") = false) :
    hasTag (cleanTitle x) = false := by
  rw [hasTag_eq_false_iff]
  unfold cleanTitle
  split_ifs
  · exact noTag_nil
  · have ha0 : includes (stripTags x) (str "&amp;") = false :=
      absent_replaceAll (by decide) (by decide) x 0 ha
    have hl0 : includes (stripTags x) (str "&lt;") = false :=
      absent_replaceAll (by decide) (by decide) x 0 hl
    have hg0 : includes (stripTags x) (str "&gt;") = false :=
      absent_replaceAll (by decide) (by decide) x 0 hg
    have hd : NoTag (decodeEntities (stripTags x)) := by
      rw [decodeEntities_eq, replaceLit_eq_self_of_not_includes ha0]
      have hT : restEntities = (str "&lt;", cLt) :: (str "&gt;", cGt) :: restEntities.drop 2 := by
        decide
      rw [hT, List.foldl_cons, List.foldl_cons]
      simp only
      rw [replaceLit_eq_self_of_not_includes hl0, replaceLit_eq_self_of_not_includes hg0]
      exact noTag_foldl _ _ (by decide) (noTag_stripTags x)
    exact noTag_of_part (noTag_replaceAll_space _ 0 hd) (trim_part _)

theorem capitalizeWords_amp_lower : ∀ (s : JSString) (b : Bool) (l : Nat),
    97 ≤ l → l ≤ 122 → includes (capitalizeWords b s) [cAmp, l] = false := by
  intro s
  induction s with
  | nil => intro b l _ _; exact includes_nil_of_ne (by simp)
  | cons c cs ih =>
    intro b l h1 h2
    simp only [capitalizeWords]
    rw [includes_cons, Bool.or_eq_false_iff]
    refine ⟨isPrefixOf_eq_false.2 ?_, ih _ l h1 h2⟩
    intro hp
    rw [List.cons_prefix_cons] at hp
    obtain ⟨hc, hrest⟩ := hp
    have hc' : c = cAmp := by
      split_ifs at hc
      · exact canon_eq_amp hc.symm
      · exact hc.symm
    subst hc'
    cases cs with
    | nil =>
      simp only [capitalizeWords] at hrest
      simp at hrest
    | cons d ds =>
      simp only [capitalizeWords] at hrest
      rw [List.cons_prefix_cons] at hrest
      have hd := hrest.1
      have hw : isWordChar cAmp = false := by decide
      rw [hw] at hd
      simp only [Bool.not_false, Bool.true_and] at hd
      split_ifs at hd with hwd
      · unfold canon at hd
        split_ifs at hd with hr
        · omega
        · exact hr ⟨hd ▸ h1, hd ▸ h2⟩
      · rw [← hd] at hwd
        exact hwd (isWordChar_lower ⟨h1, h2⟩)

theorem substring_part (s : JSString) (a b : Nat) : substring s a b <:+: s :=
  (( List.take_prefix _ _).isInfix).trans (List.drop_suffix _ _).isInfix

theorem capturePart_delimMatch (pre opn : JSString) (stop : Nat) (close : JSString) :
    CapturePart (delimMatch pre opn stop close) := by
  intro t cap n h
  unfold delimMatch at h
  simp only at h
  split_ifs at h
  simp only [Option.some.injEq, Prod.mk.injEq] at h
  rw [← h.1]
  exact (( List.take_prefix _ _).isInfix).trans (List.drop_suffix _ _).isInfix

theorem capturePart_elementMatch (opn : JSString → Option Nat) (close : JSString → Bool)
    (closeLen : Nat) : CapturePart (elementMatch opn close closeLen) := by
  intro t cap n h
  unfold elementMatch at h
  cases ho : opn t with
  | none => rw [ho] at h; simp at h
  | some k =>
    rw [ho] at h
    simp only at h
    cases hd : t.drop k with
    | nil => rw [hd] at h; simp at h
    | cons c cs =>
      rw [hd] at h
      simp only at h
      split_ifs at h
      cases hb : bodyEnd close false (c :: cs) with
      | none => rw [hb] at h; simp at h
      | some e =>
        rw [hb] at h
        simp only [Option.some.injEq, Prod.mk.injEq] at h
        rw [← h.1, ← hd]
        exact (( List.take_prefix _ _).isInfix).trans (List.drop_suffix _ _).isInfix

theorem part_of_execAll {m : JSString → Option (JSString × Nat)} (hm : CapturePart m)
    {s : JSString} {k i : Nat} {r : Nat × JSString} (hr : r ∈ execAll m k i s) :
    r.2 <:+: s := by
  obtain ⟨t, n, ht, hmt⟩ := execAll_capture s k i r hr
  exact (hm t r.2 n hmt).trans ht.isInfix

theorem findLinkText_noEntity {html : JSString} (hh : includes html (str "&amp;amp;") = false)
    {position : Nat} {t : JSString} (h : findLinkText html position = some t) :
    NoEntity t := by
  unfold findLinkText at h
  split at h
  · simp at h
  · split at h
    · simp at h
    · split_ifs at h
      simp only [Option.some.injEq] at h
      rw [← h]
      exact noEntity_cleanTitle (includes_false_of_part (substring_part _ _ _) hh)

theorem nearbyLoop_noEntity {area : JSString} (ha : includes area (str "&amp;amp;") = false) :
    ∀ (patterns : List (JSString → Option (JSString × Nat))),
      (∀ p ∈ patterns, CapturePart p) →
      ∀ t, nearbyLoop area patterns = some t → NoEntity t := by
  intro patterns
  induction patterns with
  | nil => intro _ t h; simp [nearbyLoop] at h
  | cons p rest ih =>
    intro hp t h
    simp only [nearbyLoop] at h
    cases hs : sortByLengthDesc (nearbyTitles p area) with
    | nil =>
      rw [hs] at h
      exact ih (fun q hq => hp q (List.mem_cons_of_mem _ hq)) t h
    | cons title more =>
      rw [hs] at h
      simp only [Option.some.injEq] at h
      have hmem : t ∈ nearbyTitles p area :=
        mem_sortByLengthDesc (by rw [hs, h]; exact List.mem_cons_self _ _)
      simp only [nearbyTitles, List.mem_filter, List.mem_map] at hmem
      obtain ⟨⟨r, hr, hrt⟩, _⟩ := hmem
      rw [← hrt]
      exact noEntity_cleanTitle
        (includes_false_of_part (part_of_execAll (hp p (List.mem_cons_self _ _)) hr) ha)

theorem findNearbyTitle_noEntity {html : JSString}
    (hh : includes html (str "&amp;amp;") = false) {position : Nat} {t : JSString}
    (h : findNearbyTitle html position = some t) : NoEntity t := by
  unfold findNearbyTitle at h
  refine nearbyLoop_noEntity (includes_false_of_part (substring_part _ _ _) hh) _ ?_ t h
  intro p hp
  simp only [List.mem_cons, List.mem_singleton, List.not_mem_nil, or_false] at hp
  rcases hp with e | e | e | e <;> subst e
  · exact capturePart_elementMatch _ _ _
  · exact capturePart_delimMatch _ _ _ _
  · exact capturePart_delimMatch _ _ _ _
  · exact capturePart_elementMatch _ _ _

theorem findTitleInLargerArea_noEntity {html : JSString}
    (hh : includes html (str "&amp;amp;") = false) {position : Nat} {t : JSString}
    (h : findTitleInLargerArea html position = some t) : NoEntity t := by
  unfold findTitleInLargerArea at h
  simp only at h
  split at h
  · rename_i text more hs
    simp only [Option.some.injEq] at h
    have hmem := mem_sortByLengthDesc (hs ▸ List.mem_cons_self text more)
    simp only [List.mem_filter, List.mem_map] at hmem
    obtain ⟨⟨r, hr, hrt⟩, _⟩ := hmem
    rw [← h, ← hrt]
    exact noEntity_cleanTitle (includes_false_of_part
      ((part_of_execAll (capturePart_delimMatch _ _ _ _) hr).trans (substring_part _ _ _)) hh)
  · simp at h

theorem generateTitleFromUrl_amp_lower {url t : JSString}
    (h : generateTitleFromUrl url = some t) (l : Nat) (h1 : 97 ≤ l) (h2 : l ≤ 122) :
    includes t [cAmp, l] = false := by
  unfold generateTitleFromUrl at h
  simp only at h
  split_ifs at h
  simp only [Option.some.injEq] at h
  rw [← h]
  exact includes_false_of_part (trim_part _) (capitalizeWords_amp_lower _ _ l h1 h2)

theorem resolveTitle_decoded {html : JSString} (hh : includes html (str "&amp;amp;") = false)
    {c : Candidate} {t : JSString} (h : resolveTitle html c = some t) :
    includes t (str "&amp;") = false ∧ includes t (str "&lt;") = false ∧
      includes t (str "&gt;") = false := by
  have hent : NoEntity t → includes t (str "&amp;") = false ∧
      includes t (str "&lt;") = false ∧ includes t (str "&gt;") = false :=
    fun hn => ⟨hn _ (by decide), hn _ (by decide), hn _ (by decide)⟩
  unfold resolveTitle at h
  simp only at h
  split_ifs at h
  · unfold jsOr at h
    split_ifs at h
    · exact hent (findTitleInLargerArea_noEntity hh h)
    · have ha := generateTitleFromUrl_amp_lower h 97 (by decide) (by decide)
      have hl := generateTitleFromUrl_amp_lower h 108 (by decide) (by decide)
      have hg := generateTitleFromUrl_amp_lower h 103 (by decide) (by decide)
      exact ⟨includes_false_of_longer (List.IsPrefix.isInfix ⟨str "mp;", by decide⟩) ha,
        includes_false_of_longer (List.IsPrefix.isInfix ⟨str "t;", by decide⟩) hl,
        includes_false_of_longer (List.IsPrefix.isInfix ⟨str "t;", by decide⟩) hg⟩
  · unfold extractTitleForArticle at h
    simp only at h
    split_ifs at h
    · exact hent (findLinkText_noEntity hh h)
    · exact hent (findNearbyTitle_noEntity hh h)

theorem cleanTitle_of_decoded {t : JSString} (ha : includes t (str "&amp;") = false)
    (hl : includes t (str "&lt;") = false) (hg : includes t (str "&gt;") = false) :
    hasTag (cleanTitle t) = false ∧ NoEntity (cleanTitle t) :=
  ⟨hasTag_cleanTitle ha hl hg,
    noEntity_cleanTitle
      (includes_false_of_longer (List.IsPrefix.isInfix ⟨str "amp;", by decide⟩) ha)⟩

/-! ## The properties of the specification -/

/-- C1, counterexample: `cleanTitle` is not idempotent. On `&amp;amp;` one
application gives `&amp;` and a second one gives `&`. -/
theorem cleanTitle_not_idempotent :
    cleanTitle (str "&amp;amp;") = str "&amp;" ∧
      cleanTitle (cleanTitle (str "&amp;amp;")) = str "&" ∧
      cleanTitle (cleanTitle (str "&amp;amp;")) ≠ cleanTitle (str "&amp;amp;") := by
  decide

/-- C1, amended: for every input whose cleaned form contains no substring of the
form `<...>` and none of the entity sequences that `cleanTitle` decodes, a second
application of `cleanTitle` changes nothing. -/
theorem cleanTitle_idempotent_on_clean_output (s : JSString)
    (h1 : hasTag (cleanTitle s) = false) (h2 : NoEntity (cleanTitle s)) :
    cleanTitle (cleanTitle s) = cleanTitle s :=
  cleanTitle_idem_of_clean s ((hasTag_eq_false_iff _).1 h1) h2

/-- C1, witness: the amended statement at an input with a tag, an entity, an
ampersand and a run of white space. -/
theorem cleanTitle_idempotent_on_clean_output_witness :
    cleanTitle (str " <b>AT&amp;T</b>  &amp; more ") = str "AT&T & more" ∧
      cleanTitle (cleanTitle (str " <b>AT&amp;T</b>  &amp; more ")) =
        cleanTitle (str " <b>AT&amp;T</b>  &amp; more ") :=
  ⟨by decide, cleanTitle_idempotent_on_clean_output _ (by decide) (by decide)⟩

/-- C2, the failing input: on a document with one link to `time.com` whose URL has
a fragment, `extractLatestStories` throws a `TypeError` instead of returning a
list of stories, whatever the case tables of the runtime are. -/
theorem extractLatestStories_throws_on_fragment (toLowerCase : JSString → JSString) :
    extractLatestStories toLowerCase
        (str "<a href=\"https://time.com/6000000/a-story-of-the-day/#comments\">Comments</a>") =
      .error (.typeError "url.replace is not a function") := by
  rfl

/-- C3: when `extractLatestStories` returns, its result is the first 6 elements
of the list of stories obtained by resolving and validating every candidate in
order with no cap. So it has at most 6 stories, exactly 6 when at least 6
candidates give a story, and it is the same for every list of candidates with
the same beginning up to the sixth accepted one. -/
theorem extractLatestStories_quota (toLowerCase : JSString → JSString) (html : JSString)
    (stories : List Story) (h : extractLatestStories toLowerCase html = .ok stories) :
    ∃ articles, potentialArticles toLowerCase html = .ok articles ∧
      stories = (resolveAll html articles).take 6 ∧
      stories.length ≤ 6 ∧
      (6 ≤ (resolveAll html articles).length → stories.length = 6) ∧
      (∀ pre post, articles = pre ++ post → 6 ≤ (resolveAll html pre).length →
        stories = (resolveAll html pre).take 6 ∧
        ∀ post', storyLoop html (pre ++ post') [] [] = stories) := by
  obtain ⟨articles, hp, hs⟩ := extractLatestStories_eq h
  refine ⟨articles, hp, hs, ?_, ?_, ?_⟩
  · rw [hs, List.length_take]
    exact Nat.min_le_left _ _
  · intro h6
    rw [hs, List.length_take]
    exact Nat.min_eq_left h6
  · intro pre post hpp h6
    have e : stories = (resolveAll html pre).take 6 := by
      rw [hs, hpp]
      simp only [resolveAll, List.filterMap_append]
      exact List.take_append_of_le_length h6
    refine ⟨e, fun post' => ?_⟩
    have h6' : (storyLoop html pre [] []).length = 6 := by
      rw [storyLoop_eq html pre [] [] (by simp) (by simp)
        (by
          have := (potentialArticles_spec hp).2.1
          rw [hpp, List.map_append] at this
          exact (List.nodup_append.1 this).1)]
      simp only [List.nil_append, List.length_take]
      exact Nat.min_eq_left h6
    have hst : stories = storyLoop html pre [] [] := by
      rw [e, storyLoop_eq html pre [] [] (by simp) (by simp)
        (by
          have := (potentialArticles_spec hp).2.1
          rw [hpp, List.map_append] at this
          exact (List.nodup_append.1 this).1)]
      simp
    rw [storyLoop_append html post' pre [] [] (by omega), hst]

/-- C3, witness: the sample document has seven candidates that give a story, and
six stories are returned. -/
theorem extractLatestStories_quota_witness :
    extractLatestStories asciiToLowerCase sampleDocument = .ok sampleStories ∧
    ∃ articles, potentialArticles asciiToLowerCase sampleDocument = .ok articles ∧
      sampleStories = (resolveAll sampleDocument articles).take 6 ∧
      sampleStories.length ≤ 6 ∧
      (6 ≤ (resolveAll sampleDocument articles).length → sampleStories.length = 6) ∧
      (∀ pre post, articles = pre ++ post → 6 ≤ (resolveAll sampleDocument pre).length →
        sampleStories = (resolveAll sampleDocument pre).take 6 ∧
        ∀ post', storyLoop sampleDocument (pre ++ post') [] [] = sampleStories) :=
  ⟨sampleDocument_stories,
    extractLatestStories_quota asciiToLowerCase sampleDocument sampleStories
      sampleDocument_stories⟩

/-- C4: when `extractLatestStories` returns, the stories are in strictly ascending
order of the offset at which the link of the story first occurs in the document
as the cleaned URL of a matching `href`. -/
theorem extractLatestStories_ordered (toLowerCase : JSString → JSString) (html : JSString)
    (stories : List Story) (h : extractLatestStories toLowerCase html = .ok stories) :
    stories.Pairwise (fun a b => ∃ pa pb, firstOffset html a.link = some pa ∧
      firstOffset html b.link = some pb ∧ pa < pb) := by
  obtain ⟨articles, hp, hs⟩ := extractLatestStories_eq h
  obtain ⟨h1, _, h3, _⟩ := potentialArticles_spec hp
  rw [hs]
  refine List.Pairwise.sublist (List.take_sublist _ _) ?_
  refine List.Pairwise.filterMap (storyFor html) ?_ (List.Pairwise.and_mem.1 h3)
  rintro c c' ⟨hc, hc', hlt⟩ b hb b' hb'
  have e := (storyFor_some (Option.mem_def.1 hb)).1
  have e' := (storyFor_some (Option.mem_def.1 hb')).1
  exact ⟨c.position, c'.position, e ▸ (h1 c hc).2, e' ▸ (h1 c' hc').2, hlt⟩

/-- C4, witness: the order of the stories of the sample document. -/
theorem extractLatestStories_ordered_witness :
    extractLatestStories asciiToLowerCase sampleDocument = .ok sampleStories ∧
    sampleStories.Pairwise (fun a b => ∃ pa pb, firstOffset sampleDocument a.link = some pa ∧
      firstOffset sampleDocument b.link = some pb ∧ pa < pb) :=
  ⟨sampleDocument_stories,
    extractLatestStories_ordered asciiToLowerCase sampleDocument sampleStories
      sampleDocument_stories⟩

/-- C5, the failing input: the two hrefs of `fragmentDocument`, at the offsets 3 and
90, have URLs that differ only in the fragment, `#a` and `#b`, and are the same
URL once cut at `#`. The clean-up throws a `TypeError` on the first of them
(line 86): the filtering loop produces no candidate, where the specification
has exactly one, at the offset 3, and `extractLatestStories` returns no list of
stories, whatever the case tables of the runtime are. -/
theorem extractLatestStories_throws_on_fragment_pair (toLowerCase : JSString → JSString) :
    allUrls fragmentDocument =
        [⟨str "https://time.com/7000001/first-story-of-the-day/#a", 3⟩,
         ⟨str "https://time.com/7000001/first-story-of-the-day/#b", 90⟩] ∧
      (split cHash (str "https://time.com/7000001/first-story-of-the-day/#a")).headD [] =
        str "https://time.com/7000001/first-story-of-the-day/" ∧
      (split cHash (str "https://time.com/7000001/first-story-of-the-day/#b")).headD [] =
        str "https://time.com/7000001/first-story-of-the-day/" ∧
      potentialArticles toLowerCase fragmentDocument =
        .error (.typeError "url.replace is not a function") ∧
      extractLatestStories toLowerCase fragmentDocument =
        .error (.typeError "url.replace is not a function") :=
  ⟨by decide, by decide, by decide, rfl, rfl⟩

/-- Deduplication on the documents on which `extractLatestStories` returns, none of
whose cleaned URLs has a fragment: two matching hrefs at different
offsets whose cleaned URLs are the same URL `u` yield exactly one deduplicated
candidate for `u`, at the offset of the first href with that cleaned URL, which
is not later than the earlier of the two; the array `potentialArticles` consists
of the deduplicated candidates that pass the test of line 124, so it has exactly
that candidate for `u` when `u` passes the test; and the links of the stories
returned are pairwise distinct. -/
theorem extractLatestStories_dedup (toLowerCase : JSString → JSString) (html : JSString)
    (stories : List Story) (h : extractLatestStories toLowerCase html = .ok stories) :
    (∀ m1 ∈ allUrls html, ∀ m2 ∈ allUrls html, ∀ u, cleanUrl m1.url = .ok u →
      cleanUrl m2.url = .ok u → m1.position < m2.position →
      ∃ c, (dedupEntries (allUrls html) []).filter (fun d => decide (d.url = u)) = [c] ∧
        firstOffset html u = some c.position ∧ c.position ≤ m1.position ∧
        c.position < m2.position ∧
        ∀ articles, potentialArticles toLowerCase html = .ok articles →
          articles.filter (fun d => decide (d.url = u)) =
            if keepUrl toLowerCase u then [c] else []) ∧
    (stories.map (fun s => s.link)).Nodup := by
  obtain ⟨articles, hp, hs⟩ := extractLatestStories_eq h
  obtain ⟨h1, h2, _, h4⟩ := dedupEntries_spec (allUrls html) []
  constructor
  · intro m1 hm1 m2 _ u hu1 _ hlt
    obtain ⟨c, hc, hcu⟩ := h4 m1 hm1 u hu1 (by simp)
    have hfilter := filter_url_eq_singleton _ c h2 hc
    rw [hcu] at hfilter
    obtain ⟨p, hp1, hp2⟩ := firstOff_le _ m1 u (allUrls_pairwise html) hm1 hu1
    have hfo : firstOffset html u = some c.position := hcu ▸ (h1 c hc).2
    have hpc : p = c.position := by
      have : firstOff (allUrls html) u = some c.position := hfo
      rw [hp1] at this
      exact Option.some.inj this
    refine ⟨c, hfilter, hfo, hpc ▸ hp2, by omega, ?_⟩
    intro articles' hp'
    rw [potentialArticles_eq hp', List.filter_filter]
    have : (fun a : Candidate => decide (a.url = u) && keepUrl toLowerCase a.url) =
        fun a => keepUrl toLowerCase u && decide (a.url = u) := by
      funext a
      by_cases ha : a.url = u
      · simp [ha]
      · simp [ha]
    rw [this, ← List.filter_filter, hfilter]
    by_cases hk : keepUrl toLowerCase u = true
    · simp [hk]
    · simp [hk]
  · rw [hs]
    have hnd := (potentialArticles_spec hp).2.1
    have hpw : articles.Pairwise (fun a b => a.url ≠ b.url) := List.pairwise_map.1 hnd
    refine List.Pairwise.sublist ((List.take_sublist _ _).map _) ?_
    refine List.pairwise_map.2 (List.Pairwise.filterMap (storyFor html) ?_ hpw)
    intro c c' hne b hb b' hb'
    rw [(storyFor_some (Option.mem_def.1 hb)).1, (storyFor_some (Option.mem_def.1 hb')).1]
    exact hne

/-- The two links to the first story of the sample document give one candidate. -/
theorem extractLatestStories_dedup_witness :
    extractLatestStories asciiToLowerCase sampleDocument = .ok sampleStories ∧
    ((∀ m1 ∈ allUrls sampleDocument, ∀ m2 ∈ allUrls sampleDocument, ∀ u,
      cleanUrl m1.url = .ok u → cleanUrl m2.url = .ok u → m1.position < m2.position →
      ∃ c, (dedupEntries (allUrls sampleDocument) []).filter (fun d => decide (d.url = u)) = [c] ∧
        firstOffset sampleDocument u = some c.position ∧ c.position ≤ m1.position ∧
        c.position < m2.position ∧
        ∀ articles, potentialArticles asciiToLowerCase sampleDocument = .ok articles →
          articles.filter (fun d => decide (d.url = u)) =
            if keepUrl asciiToLowerCase u then [c] else []) ∧
    (sampleStories.map (fun s => s.link)).Nodup) :=
  ⟨sampleDocument_stories,
    extractLatestStories_dedup asciiToLowerCase sampleDocument sampleStories
      sampleDocument_stories⟩

/-- C6: when `extractLatestStories` returns, every story link is longer than 30
code units and its lower-case form contains none of the patterns of
`excludePatterns`. -/
theorem extractLatestStories_links_filtered (toLowerCase : JSString → JSString)
    (html : JSString) (stories : List Story)
    (h : extractLatestStories toLowerCase html = .ok stories) :
    ∀ story ∈ stories, 30 < story.link.length ∧
      ∀ pattern ∈ excludePatterns, includes (toLowerCase story.link) pattern = false := by
  obtain ⟨articles, hp, hs⟩ := extractLatestStories_eq h
  intro story hstory
  rw [hs] at hstory
  obtain ⟨c, hc, hsf⟩ := mem_resolveAll (List.mem_of_mem_take hstory)
  have hk := ((potentialArticles_spec hp).1 c hc).1
  rw [(storyFor_some hsf).1]
  simp only [keepUrl, shouldExclude, Bool.and_eq_true, Bool.not_eq_true', decide_eq_true_eq,
    List.any_eq_false] at hk
  refine ⟨hk.1.2, fun pattern hpat => ?_⟩
  simpa using hk.1.1 pattern hpat

/-- C6, witness: the links of the stories of the sample document. -/
theorem extractLatestStories_links_filtered_witness :
    extractLatestStories asciiToLowerCase sampleDocument = .ok sampleStories ∧
    ∀ story ∈ sampleStories, 30 < story.link.length ∧
      ∀ pattern ∈ excludePatterns, includes (asciiToLowerCase story.link) pattern = false :=
  ⟨sampleDocument_stories,
    extractLatestStories_links_filtered asciiToLowerCase sampleDocument sampleStories
      sampleDocument_stories⟩

/-- C7: when `extractLatestStories` returns, every story title has a length
between 5 and 500 and is not, as a whole string compared without regard to case,
one of the words of `stopWords`. -/
theorem extractLatestStories_titles_valid (toLowerCase : JSString → JSString)
    (html : JSString) (stories : List Story)
    (h : extractLatestStories toLowerCase html = .ok stories) :
    ∀ story ∈ stories, 5 ≤ story.title.length ∧ story.title.length ≤ 500 ∧
      ∀ word ∈ stopWords, story.title.map canon ≠ word.map canon := by
  obtain ⟨articles, _, hs⟩ := extractLatestStories_eq h
  intro story hstory
  rw [hs] at hstory
  obtain ⟨c, _, hsf⟩ := mem_resolveAll (List.mem_of_mem_take hstory)
  have hv := (storyFor_some hsf).2.1
  simp only [validTitle, wholeMatchCI, Bool.and_eq_true, Bool.not_eq_true', decide_eq_true_eq,
    List.any_eq_false, beq_iff_eq] at hv
  exact ⟨hv.1.1.2, hv.1.2, fun word hw => hv.2 word hw⟩

/-- C7, witness: the titles of the stories of the sample document. -/
theorem extractLatestStories_titles_valid_witness :
    extractLatestStories asciiToLowerCase sampleDocument = .ok sampleStories ∧
    ∀ story ∈ sampleStories, 5 ≤ story.title.length ∧ story.title.length ≤ 500 ∧
      ∀ word ∈ stopWords, story.title.map canon ≠ word.map canon :=
  ⟨sampleDocument_stories,
    extractLatestStories_titles_valid asciiToLowerCase sampleDocument sampleStories
      sampleDocument_stories⟩

/-- C8, counterexample: the anchor text of `encodedDocument` is cleaned twice, once
by `findLinkText` and once in the title loop, and the title of the story that
is returned still has the tag `<b>` and the entity `&amp;`. -/
theorem extractLatestStories_title_with_markup :
    extractLatestStories asciiToLowerCase encodedDocument =
        .ok [⟨str "<b> &amp; more", str "https://time.com/7000001/first-story-of-the-day/"⟩] ∧
      hasTag (str "<b> &amp; more") = true ∧
      includes (str "<b> &amp; more") (str "&amp;") = true := by
  decide

/-- C8, amended: for every document that contains no substring `&amp;amp;` and on
which `extractLatestStories` returns, every story title contains no substring
of the form `<...>` and none of the entity sequences that `cleanTitle` decodes. -/
theorem extractLatestStories_titles_clean (toLowerCase : JSString → JSString)
    (html : JSString) (stories : List Story)
    (hamp : includes html (str "&amp;amp;") = false)
    (h : extractLatestStories toLowerCase html = .ok stories) :
    ∀ story ∈ stories, hasTag story.title = false ∧ NoEntity story.title := by
  obtain ⟨articles, hp, hs⟩ := extractLatestStories_eq h
  intro story hstory
  rw [hs] at hstory
  obtain ⟨c, hc, hsf⟩ := mem_resolveAll (List.mem_of_mem_take hstory)
  obtain ⟨_, _, raw, hraw, htitle⟩ := storyFor_some hsf
  obtain ⟨ha, hl, hg⟩ := resolveTitle_decoded hamp hraw
  rw [htitle]
  exact cleanTitle_of_decoded ha hl hg

/-- C8, witness: the anchor text of `ampersandDocument` has the entity `&amp;` and no
`&amp;amp;`; the title of its story is `AT&T and the news of the day`. -/
theorem extractLatestStories_titles_clean_witness :
    includes ampersandDocument (str "&amp;amp;") = false ∧
    extractLatestStories asciiToLowerCase ampersandDocument = .ok ampersandStories ∧
    ∀ story ∈ ampersandStories, hasTag story.title = false ∧ NoEntity story.title :=
  ⟨by decide, by decide,
    extractLatestStories_titles_clean asciiToLowerCase ampersandDocument ampersandStories
      (by decide) (by decide)⟩

/-- C9, counterexample: the last segment of this URL that is longer than 3 code
units and not purely numeric is `news`, and `generateTitleFromUrl` gives no
result, because `news` is not longer than 5 code units. -/
theorem generateTitleFromUrl_short_segment :
    lastMeaningful (split cSlash (str "https://time.com/section/2024/01/15/news")) =
        some (str "news") ∧
      generateTitleFromUrl (str "https://time.com/section/2024/01/15/news") = none := by
  decide

/-- C9, amended: `generateTitleFromUrl` selects the last `/`-separated segment that
is longer than 3 code units and not purely numeric; when that segment is longer
than 5 code units the result is the segment with hyphens and underscores
replaced by spaces, the first letter of each word in upper case, trimmed; there
is no result exactly when there is no such segment or the selected segment has
at most 5 code units. -/
theorem generateTitleFromUrl_rule (url : JSString) :
    generateTitleFromUrl url =
        (match lastMeaningful (split cSlash url) with
        | none => none
        | some seg =>
          if 5 < seg.length then some (trim (capitalizeWords false (replaceDashes seg)))
          else none) ∧
      (generateTitleFromUrl url = none ↔
        (lastMeaningful (split cSlash url) = none ∨
          ∃ seg, lastMeaningful (split cSlash url) = some seg ∧ seg.length ≤ 5)) := by
  refine ⟨generateTitleFromUrl_eq url, ?_⟩
  rw [generateTitleFromUrl_eq]
  cases lastMeaningful (split cSlash url) with
  | none => simp
  | some seg =>
    by_cases h5 : 5 < seg.length
    · simp [h5]
    · simp [h5, Nat.le_of_not_lt h5]

/-- C10: for every URL whose last `/`-separated segment is made of words of
lower-case letters joined by single hyphens or underscores and is longer than 5
code units, `generateTitleFromUrl` returns the words, each with its first letter
in upper case and the rest unchanged, joined by single spaces. -/
theorem generateTitleFromUrl_words (url w : JSString) (more : List (Nat × JSString))
    (hw : isLowerWord w = true)
    (hmore : more.all (fun p => isDash p.1 && isLowerWord p.2) = true)
    (hlast : (split cSlash url).getLast? = some (joinWords w more))
    (hlen : 5 < (joinWords w more).length) :
    generateTitleFromUrl url = some (titleOfWords w more) := by
  rw [generateTitleFromUrl_eq,
    lastMeaningful_of_getLast? hlast (meaningful_joinWords w more hw hlen)]
  simp only [hlen, ↓reduceIte, Option.some.injEq]
  rw [capitalizeWords_joinWords more w hw hmore]
  exact trim_eq_self (titleOfWords_head w more hw) (titleOfWords_last more w hw hmore)

/-- C10, witness: the URL of the specification, `.../breaking-news-story-today`. -/
theorem generateTitleFromUrl_words_witness :
    titleOfWords (str "breaking") [(45, str "news"), (45, str "story"), (45, str "today")] =
        str "Breaking News Story Today" ∧
      generateTitleFromUrl (str "https://time.com/7000001/breaking-news-story-today") =
        some (titleOfWords (str "breaking")
          [(45, str "news"), (45, str "story"), (45, str "today")]) :=
  ⟨by decide,
    generateTitleFromUrl_words (str "https://time.com/7000001/breaking-news-story-today")
      (str "breaking") [(45, str "news"), (45, str "story"), (45, str "today")]
      (by decide) (by decide) (by decide) (by decide)⟩

/-- C11: when `findLinkText` gives a text of at least 10 code units,
`extractTitleForArticle` returns that text, and so does the resolution of the
title in the title loop; neither the nearby search nor the search in the larger
area has a part in the result. -/
theorem extractTitleForArticle_link_text (html : JSString) (position : Nat)
    (url text : JSString) (h : findLinkText html position = some text)
    (hlen : 10 ≤ text.length) :
    extractTitleForArticle html position url = some text ∧
      resolveTitle html ⟨url, position⟩ = some text := by
  have hne : text ≠ [] := by
    intro e
    rw [e] at hlen
    simp at hlen
  have h1 : extractTitleForArticle html position url = some text := by
    simp [extractTitleForArticle, h, truthy, hne, hlen]
  refine ⟨h1, ?_⟩
  have h5 : ¬ text.length < 5 := by omega
  simp [resolveTitle, h1, truthy, hne, h5]

/-- C11, witness: in `headingDocument` the nearby search finds the heading, and the
title is the anchor text all the same. -/
theorem extractTitleForArticle_link_text_witness :
    findNearbyTitle headingDocument 46 = some (str "A heading that is long enough here") ∧
      findLinkText headingDocument 46 = some (str "A Short Guide to Something Longer") ∧
      10 ≤ (str "A Short Guide to Something Longer").length ∧
      extractTitleForArticle headingDocument 46
          (str "https://time.com/7000001/first-story-of-the-day/") =
        some (str "A Short Guide to Something Longer") ∧
      resolveTitle headingDocument ⟨str "https://time.com/7000001/first-story-of-the-day/", 46⟩ =
        some (str "A Short Guide to Something Longer") :=
  ⟨by decide, by decide, by decide,
    extractTitleForArticle_link_text headingDocument 46
      (str "https://time.com/7000001/first-story-of-the-day/")
      (str "A Short Guide to Something Longer") (by decide) (by decide)⟩

/-- C12, the failing input: the two links of `slashDocument` differ only by a `/`
at the end of the URL; they are kept as two candidates and give two stories,
and the link of the first story ends in `/`. -/
theorem extractLatestStories_keeps_trailing_slash :
    extractLatestStories asciiToLowerCase slashDocument =
        .ok [⟨str "First story of the day",
              str "https://time.com/7000001/first-story-of-the-day/"⟩,
             ⟨str "First story, once more",
              str "https://time.com/7000001/first-story-of-the-day"⟩] ∧
      cleanUrl (str "https://time.com/7000001/first-story-of-the-day/") =
        .ok (str "https://time.com/7000001/first-story-of-the-day/") ∧
      cleanUrl (str "https://time.com/7000001/first-story-of-the-day\\") =
        .ok (str "https://time.com/7000001/first-story-of-the-day") := by
  decide

/-- C13, counterexample: the link of `categoryDocument` has a single segment behind
the host and more than 30 code units; split at `/` it has 4 parts, and it is
returned as the link of a story. -/
theorem extractLatestStories_shallow_link :
    split cSlash (str "https://time.com/some-long-category-name-here") =
        [str "https:", [], str "time.com", str "some-long-category-name-here"] ∧
      extractLatestStories asciiToLowerCase categoryDocument =
        .ok [⟨str "A category page of the site",
              str "https://time.com/some-long-category-name-here"⟩] := by
  decide

/-- C13, amended: when `extractLatestStories` returns, every story link has at least
4 parts when the whole URL, protocol and host included, is split at `/`; and
every URL found by the discovery has at least 4 such parts once it is cleaned,
so that this test drops no candidate. -/
theorem extractLatestStories_depth (toLowerCase : JSString → JSString) (html : JSString)
    (stories : List Story) (h : extractLatestStories toLowerCase html = .ok stories) :
    (∀ story ∈ stories, 4 ≤ (split cSlash story.link).length) ∧
      (∀ m ∈ allUrls html, ∀ u, cleanUrl m.url = .ok u → 4 ≤ (split cSlash u).length) := by
  obtain ⟨articles, hp, hs⟩ := extractLatestStories_eq h
  refine ⟨?_, fun m hm u hu => discovered_url_parts hm hu⟩
  intro story hstory
  rw [hs] at hstory
  obtain ⟨c, hc, hsf⟩ := mem_resolveAll (List.mem_of_mem_take hstory)
  have hk := ((potentialArticles_spec hp).1 c hc).1
  rw [(storyFor_some hsf).1]
  simp only [keepUrl, Bool.and_eq_true, decide_eq_true_eq] at hk
  exact hk.2

/-- C13, witness: the links of the stories of the sample document. -/
theorem extractLatestStories_depth_witness :
    extractLatestStories asciiToLowerCase sampleDocument = .ok sampleStories ∧
    ((∀ story ∈ sampleStories, 4 ≤ (split cSlash story.link).length) ∧
      (∀ m ∈ allUrls sampleDocument, ∀ u, cleanUrl m.url = .ok u →
        4 ≤ (split cSlash u).length)) :=
  ⟨sampleDocument_stories,
    extractLatestStories_depth asciiToLowerCase sampleDocument sampleStories
      sampleDocument_stories⟩

/-- C14, the failing input: when `new URL(req.url, ...)` throws on line 344, as it
does for the request `GET //`, the value is thrown before the `try` block is
entered and the handler is rejected with it. The request, which is none of the
three routes, is not answered with the status 404, and not answered at all. -/
theorem handler_rejected (toLowerCase : JSString → JSString)
    (parseUrl : JSString → JSString → Except Thrown JSString) (method url host : JSString)
    (thrown : Thrown) (h : parseUrl url (str "http://" ++ host) = .error thrown) :
    handler toLowerCase parseUrl method url host = .rejected thrown ∧
      ∀ r, handler toLowerCase parseUrl method url host ≠ .respond r := by
  unfold handler
  rw [h]
  exact ⟨rfl, fun r hr => Handled.noConfusion hr⟩

/-- C14, witness: the request `GET //` with the header `Host: localhost:3000`. -/
theorem handler_rejected_witness :
    samplePathname (str "//") (str "http://" ++ str "localhost:3000") =
        .error (.typeError "Invalid URL") ∧
      handler asciiToLowerCase samplePathname (str "GET") (str "//") (str "localhost:3000") =
        .rejected (.typeError "Invalid URL") ∧
      ∀ r, handler asciiToLowerCase samplePathname (str "GET") (str "//")
        (str "localhost:3000") ≠ .respond r :=
  ⟨by decide,
    handler_rejected asciiToLowerCase samplePathname (str "GET") (str "//")
      (str "localhost:3000") (.typeError "Invalid URL") (by decide)⟩

/-- Routing behind line 344: every request whose URL is parsed and which is other
than `GET /`, `GET /getTimeStories` and `GET /debug` is answered at once, without
a fetch and without an extraction, with the status 404 and the body
`{error: 'Endpoint not found'}`. -/
theorem handler_not_found (toLowerCase : JSString → JSString)
    (parseUrl : JSString → JSString → Except Thrown JSString)
    (method url host pathname : JSString)
    (hparse : parseUrl url (str "http://" ++ host) = .ok pathname)
    (h : ¬ (method = str "GET" ∧
      (pathname = str "/" ∨ pathname = str "/getTimeStories" ∨ pathname = str "/debug"))) :
    handler toLowerCase parseUrl method url host =
      .respond ⟨404, .object [("error", .text "Endpoint not found")]⟩ := by
  simp only [not_and, not_or] at h
  unfold handler
  rw [hparse]
  by_cases hm : method = str "GET"
  · obtain ⟨h1, h2, h3⟩ := h hm
    simp [h1, h2, h3, notFoundResponse]
  · simp [hm, notFoundResponse]

/-- A `POST` to `/getTimeStories` is answered with the status 404. -/
theorem handler_not_found_on_post :
    handler asciiToLowerCase samplePathname (str "POST") (str "/getTimeStories")
        (str "localhost:3000") =
      .respond ⟨404, .object [("error", .text "Endpoint not found")]⟩ :=
  handler_not_found asciiToLowerCase samplePathname (str "POST") (str "/getTimeStories")
    (str "localhost:3000") (str "/getTimeStories") (by decide) (by decide)

/-- C15, counterexample: the anchor text of `longAnchor` has exactly 1000 code units,
and `findLinkText` gives no result. -/
theorem findLinkText_rejects_thousand :
    indexOf longAnchor (str ">") 0 = some 2 ∧
      indexOf longAnchor (str "</a>") 2 = some 1003 ∧
      (substring longAnchor 3 1003).length = 1000 ∧
      findLinkText longAnchor 0 = none := by
  decide

/-- C15, amended: with `s` the index of the first `>` at or behind the offset and `e`
the index of the first `</a>` at or behind `s`, `findLinkText` returns the cleaned
text strictly between `s` and `e` when that text has at most 999 code units, and
it gives no result exactly when the text has 1000 code units or more, or `>` or
`</a>` is not found. -/
theorem findLinkText_rule (html : JSString) (position : Nat) :
    findLinkText html position =
        (match indexOf html (str ">") position with
        | none => none
        | some s =>
          match indexOf html (str "</a>") s with
          | none => none
          | some e =>
            if 1000 ≤ (substring html (s + 1) e).length then none
            else some (cleanTitle (substring html (s + 1) e))) ∧
      (findLinkText html position = none ↔
        (indexOf html (str ">") position = none ∨
          ∃ s, indexOf html (str ">") position = some s ∧
            (indexOf html (str "</a>") s = none ∨
              ∃ e, indexOf html (str "</a>") s = some e ∧
                1000 ≤ (substring html (s + 1) e).length))) ∧
      (∀ s e, indexOf html (str ">") position = some s →
        indexOf html (str "</a>") s = some e →
        s < e ∧ (substring html (s + 1) e).length = e - s - 1) := by
  refine ⟨findLinkText_eq html position, ?_, fun s e hs he => linkSpan hs he⟩
  rw [findLinkText_eq]
  cases hs : indexOf html (str ">") position with
  | none => simp
  | some s =>
    cases he : indexOf html (str "</a>") s with
    | none => simp [he]
    | some e =>
      by_cases h : 1000 ≤ (substring html (s + 1) e).length
      · simp [he, h]
      · simp [he, h]

/-- C16, counterexample: in `spanDocument` the class of the headings has a match,
`Short`, whose cleaned length is not in `[15, 200]`; `findNearbyTitle` goes on to
the lower classes and returns the text of the span. -/
theorem findNearbyTitle_falls_through :
    (execAll headingMatch 0 0 (nearbyArea spanDocument 17)).map (fun r => r.2) =
        [str "Short"] ∧
      nearbyTitles headingMatch (nearbyArea spanDocument 17) = [] ∧
      findNearbyTitle spanDocument 17 = some (str "A span text that is long enough") := by
  decide

/-- C16, amended: `findNearbyTitle` uses the first pattern class, in the order
headings, `<title>`, `title=` attribute, `<span>`, that has a match of cleaned
length in `[15, 200]` in the window; its result is the first of the longest such
matches of that class; a class all of whose matches have a cleaned length
outside `[15, 200]` is passed over; and there is no result exactly when no class
has such a match. -/
theorem findNearbyTitle_rule (html : JSString) (position : Nat) :
    (∀ t, findNearbyTitle html position = some t →
      ∃ pre cls rest, nearbyClasses = pre ++ cls :: rest ∧
        (∀ p ∈ pre, nearbyTitles p (nearbyArea html position) = []) ∧
        firstLongest (nearbyTitles cls (nearbyArea html position)) = some t ∧
        t ∈ nearbyTitles cls (nearbyArea html position) ∧
        (∀ x ∈ nearbyTitles cls (nearbyArea html position), x.length ≤ t.length) ∧
        15 ≤ t.length ∧ t.length ≤ 200) ∧
      (findNearbyTitle html position = none ↔
        ∀ p ∈ nearbyClasses, nearbyTitles p (nearbyArea html position) = []) := by
  have e : findNearbyTitle html position =
      nearbyLoop (nearbyArea html position) nearbyClasses := rfl
  rw [e]
  refine ⟨?_, nearbyLoop_eq_none _ _⟩
  intro t ht
  obtain ⟨pre, cls, rest, hpp, h1, h2⟩ := nearbyLoop_eq_some _ _ t ht
  have hm := firstLongest_mem h2
  have hf := hm.1
  simp only [nearbyTitles, List.mem_filter, Bool.and_eq_true, decide_eq_true_eq] at hf
  exact ⟨pre, cls, rest, hpp, h1, h2, hm.1, hm.2, hf.2.1.2, hf.2.2⟩

/-- C17: for every input the result of `cleanTitle` has no white space at its
beginning or at its end, has no white space character other than the space,
and has no two spaces next to each other. -/
theorem cleanTitle_whiteSpace_normal (s : JSString) :
    (∀ c ∈ (cleanTitle s).head?, isWhiteSpace c = false) ∧
      (∀ c ∈ (cleanTitle s).getLast?, isWhiteSpace c = false) ∧
      (∀ c ∈ cleanTitle s, isWhiteSpace c = true → c = cSp) ∧
      List.Chain' (fun a b => ¬ (a = cSp ∧ b = cSp)) (cleanTitle s) := by
  have ht := trim_cleanTitle s
  refine ⟨?_, ?_, (wsNormal_cleanTitle s).1, ?_⟩
  · rw [← ht]
    exact trim_head _
  · rw [← ht]
    exact trim_last _
  · refine List.Chain'.imp ?_ (wsNormal_cleanTitle s).2
    rintro a b hab ⟨ha, hb⟩
    exact hab ⟨by rw [ha]; decide, by rw [hb]; decide⟩

/-- C18: one pass of the tag stripping leaves no `<` with a `>` behind it, so that
a second pass strips nothing; and for every string without `&` a second
application of `cleanTitle` changes nothing. -/
theorem cleanTitle_idempotent_without_ampersand (s : JSString) (h : cAmp ∉ s) :
    hasTag (stripTags s) = false ∧ stripTags (stripTags s) = stripTags s ∧
      cleanTitle (cleanTitle s) = cleanTitle s :=
  ⟨(hasTag_eq_false_iff _).2 (noTag_stripTags s), stripTags_eq_self (noTag_stripTags s),
    cleanTitle_idem_of_no_amp s h⟩

/-- C18, witness: a string with tags, an unclosed `<` and runs of white space. -/
theorem cleanTitle_idempotent_without_ampersand_witness :
    cAmp ∉ str " <b>Hello</b>   world > <unclosed " ∧
      cleanTitle (str " <b>Hello</b>   world > <unclosed ") = str "Hello world > <unclosed" ∧
      hasTag (stripTags (str " <b>Hello</b>   world > <unclosed ")) = false ∧
      stripTags (stripTags (str " <b>Hello</b>   world > <unclosed ")) =
        stripTags (str " <b>Hello</b>   world > <unclosed ") ∧
      cleanTitle (cleanTitle (str " <b>Hello</b>   world > <unclosed ")) =
        cleanTitle (str " <b>Hello</b>   world > <unclosed ") :=
  ⟨by decide, by decide,
    cleanTitle_idempotent_without_ampersand (str " <b>Hello</b>   world > <unclosed ")
      (by decide)⟩

/-- C19: for every URL that begins with `https://time.com/` there is a last
`/`-separated segment that is longer than 3 code units and not purely numeric,
and `generateTitleFromUrl` gives no result exactly when that segment has 4 or 5
code units; when every segment behind the host is purely numeric or has at most
3 code units, the result is `Time.Com`, made from the host. -/
theorem generateTitleFromUrl_host (rest : JSString) :
    (∃ seg, lastMeaningful (split cSlash (str "https://time.com/" ++ rest)) = some seg ∧
      3 < seg.length ∧ isNumeric seg = false ∧
      (generateTitleFromUrl (str "https://time.com/" ++ rest) = none ↔
        (seg.length = 4 ∨ seg.length = 5))) ∧
      ((∀ p ∈ split cSlash rest, isNumeric p = true ∨ p.length ≤ 3) →
        generateTitleFromUrl (str "https://time.com/" ++ rest) = some (str "Time.Com")) := by
  have hl := lastMeaningful_host (split cSlash rest)
  rw [← split_host] at hl
  constructor
  · have hex : ∃ seg, lastMeaningful (split cSlash (str "https://time.com/" ++ rest)) =
        some seg := by
      rw [hl]
      cases lastMeaningful (split cSlash rest) with
      | none => exact ⟨_, rfl⟩
      | some seg => exact ⟨_, rfl⟩
    obtain ⟨seg, hseg⟩ := hex
    have hm := (lastMeaningful_some hseg).2
    simp only [meaningful, Bool.and_eq_true, Bool.not_eq_true', decide_eq_true_eq] at hm
    refine ⟨seg, hseg, hm.1.2, hm.2, ?_⟩
    rw [generateTitleFromUrl_eq, hseg]
    simp only
    by_cases h5 : 5 < seg.length
    · simp only [h5, ↓reduceIte, reduceCtorEq, false_iff]
      omega
    · simp only [h5, ↓reduceIte, true_iff]
      omega
  · intro hall
    have hnone : lastMeaningful (split cSlash rest) = none := by
      unfold lastMeaningful
      rw [List.getLast?_eq_none_iff, List.filter_eq_nil_iff]
      intro p hp
      rw [meaningful_eq_false_iff.2 (hall p hp)]
      simp
    rw [hnone] at hl
    rw [generateTitleFromUrl_eq, hl]
    decide

/-- C20: no text of 15 code units or more matches the pattern of the generic
words, and the result of `findTitleInLargerArea` is the first of the longest
cleaned matches of `/>([^<]+)</g` in the window that have a length in `[15, 300]`
and at least 3 parts when split at the spaces, the test of the generic words
left out. -/
theorem findTitleInLargerArea_without_denylist (html : JSString) (position : Nat) :
    (∀ text : JSString, 15 ≤ text.length → wholeMatchCI genericWords text = false) ∧
      findTitleInLargerArea html position = firstLongest (largerAreaTexts html position) ∧
      (∀ t, findTitleInLargerArea html position = some t →
        ∃ pre post, largerAreaTexts html position = pre ++ t :: post ∧
          (∀ x ∈ pre, x.length < t.length) ∧ ∀ x ∈ post, x.length ≤ t.length) := by
  have e : findTitleInLargerArea html position =
      firstLongest (largerAreaTexts html position) := by
    rw [← head?_sortByLengthDesc]
    have hf : largerAreaTexts html position =
        ((execAll textMatch 0 0
          (substring html (position - 5000) (min html.length (position + 2000)))).map
          (fun r => cleanTitle r.2)).filter
        (fun text => !text.isEmpty && decide (15 ≤ text.length) &&
          decide (text.length ≤ 300) && !wholeMatchCI genericWords text &&
          decide (3 ≤ (split cSp text).length)) := by
      unfold largerAreaTexts
      apply List.filter_congr
      intro text _
      by_cases h15 : 15 ≤ text.length
      · have hne : text.isEmpty = false := by
          cases text with
          | nil => simp at h15
          | cons c cs => rfl
        simp [wholeMatchCI_genericWords h15, hne, h15]
      · simp [h15]
    rw [hf]
    unfold findTitleInLargerArea
    simp only
    split <;> rename_i hs <;> simp [hs]
  exact ⟨fun text h => wholeMatchCI_genericWords h, e,
    fun t ht => firstLongest_eq_some (e ▸ ht)⟩

end TimeStory
